import Mathlib

/-
Verification of the arxiv_prep repository (main.py and main2.py).

Strings are modelled as `List Char`; text files as lists of lines
(each a `List Char`) or as a flat `List Char` that is split with a
`readlines`-style function.  The file system is modelled as a list of
paths.  Python functions that can raise are embedded as `Except Unit`-
valued functions.
-/

namespace ArxivPrep

/-! ### Python string helpers -/

/-- The characters stripped by Python's `str.strip()` family. -/
def isPySpace (c : Char) : Bool :=
  c == ' ' || c == '\t' || c == '\n' || c == '\r' || c == '\x0b' || c == '\x0c'

/-- Python `l.lstrip()`. -/
def pyLstrip (l : List Char) : List Char := l.dropWhile isPySpace

/-- Python `l.rstrip()`. -/
def pyRstrip (l : List Char) : List Char := (l.reverse.dropWhile isPySpace).reverse

/-- The open-brace character. -/
def openBrace : Char := '\x7b'

/-- The close-brace character. -/
def closeBrace : Char := '\x7d'

/-! ### Comment stripper (main2.py `strip_comments_from_line`, `_get_leftmost_comment`) -/

/-- Inner loop of `_get_leftmost_comment`: the Python code scans
`reversed(range(1, len(l)))` and keeps overwriting `leftmost`, so the
final value is the least index `i ≥ 1` with `l[i] == '%'` and
`l[i-1] != '\\'`.  We compute that least index by a forward scan that
tracks the previous character. -/
def glcGo (prev : Char) (l : List Char) (i : Nat) : Option Nat :=
  match l with
  | [] => none
  | c :: rest => if c = '%' ∧ prev ≠ '\\' then some i else glcGo c rest (i + 1)

/-- main2.py `_get_leftmost_comment`. -/
def getLeftmostComment (l : List Char) : Option Nat :=
  match l with
  | [] => none
  | c :: rest => glcGo c rest 1

/-- main2.py `strip_comments_from_line(l, l_prev)`.  `none` models the
Python `None` return (drop the line). -/
def stripCommentsFromLine (l : List Char) (lPrev : Option (List Char)) :
    Option (List Char) :=
  if (pyLstrip l).head? = some '%' then
    if lPrev = some ['%', '\n'] ∨ lPrev = some ['\n'] then none
    else some ['%', '\n']
  else if (pyRstrip l).getLast? = some '%' then some l
  else
    match getLeftmostComment l with
    | none => some l
    | some i => some (pyRstrip (l.take i) ++ ['\n'])

/-- main.py `strip_comments_from_line(l, l_prev)`: identical except the
comment-line test is `l.startswith('%')` without `lstrip`. -/
def stripCommentsFromLineV1 (l : List Char) (lPrev : Option (List Char)) :
    Option (List Char) :=
  if l.head? = some '%' then
    if lPrev = some ['%', '\n'] ∨ lPrev = some ['\n'] then none
    else some ['%', '\n']
  else if (pyRstrip l).getLast? = some '%' then some l
  else
    match getLeftmostComment l with
    | none => some l
    | some i => some (pyRstrip (l.take i) ++ ['\n'])

/-- An unescaped comment marker sits at position `i` of line `l`:
`i ≥ 1`, the character there is `%`, and it is not immediately preceded
by a backslash. -/
def CommentAt (l : List Char) (i : Nat) : Prop :=
  1 ≤ i ∧ l[i]? = some '%' ∧ l[i - 1]? ≠ some '\\'

instance (l : List Char) (i : Nat) : Decidable (CommentAt l i) := by
  unfold CommentAt; infer_instance

theorem glcGo_shift (l : List Char) :
    ∀ (prev : Char) (i : Nat), glcGo prev l (i + 1) = (glcGo prev l i).map (· + 1) := by
  induction l with
  | nil => intro prev i; rfl
  | cons c rest ih =>
    intro prev i
    by_cases h : c = '%' ∧ prev ≠ '\\'
    · simp [glcGo, h]
    · simp only [glcGo, if_neg h]
      exact ih c (i + 1)

theorem commentAt_cons_succ (c : Char) (l : List Char) (i : Nat) (hi : 1 ≤ i) :
    CommentAt (c :: l) (i + 1) ↔ CommentAt l i := by
  unfold CommentAt
  constructor
  · rintro ⟨-, h2, h3⟩
    refine ⟨hi, ?_, ?_⟩
    · simpa using h2
    · have hisub : i + 1 - 1 = i := by omega
      rw [hisub] at h3
      obtain ⟨j, hj⟩ : ∃ j, i = j + 1 := ⟨i - 1, by omega⟩
      subst hj
      simpa using h3
  · rintro ⟨-, h2, h3⟩
    refine ⟨by omega, by simpa using h2, ?_⟩
    have hisub : i + 1 - 1 = i := by omega
    rw [hisub]
    obtain ⟨j, hj⟩ : ∃ j, i = j + 1 := ⟨i - 1, by omega⟩
    subst hj
    simpa using h3

theorem commentAt_cons_one (c₀ c₁ : Char) (rest : List Char) :
    CommentAt (c₀ :: c₁ :: rest) 1 ↔ c₁ = '%' ∧ c₀ ≠ '\\' := by
  unfold CommentAt
  constructor
  · rintro ⟨-, h2, h3⟩
    refine ⟨by simpa using h2, ?_⟩
    intro hc
    exact h3 (by simp [hc])
  · rintro ⟨h1, h2⟩
    refine ⟨le_refl 1, by simp [h1], ?_⟩
    simpa using h2

/-- Characterisation of `_get_leftmost_comment`: it returns the least
position of an unescaped comment marker, or `none` when there is none. -/
theorem getLeftmostComment_spec (l : List Char) :
    (∀ i, getLeftmostComment l = some i →
        CommentAt l i ∧ ∀ j, CommentAt l j → i ≤ j) ∧
    (getLeftmostComment l = none → ∀ j, ¬ CommentAt l j) := by
  induction l with
  | nil =>
    constructor
    · intro i h; simp [getLeftmostComment] at h
    · rintro - j ⟨-, h2, -⟩; simp at h2
  | cons c₀ l' ih =>
    match l' with
    | [] =>
      constructor
      · intro i h; simp [getLeftmostComment, glcGo] at h
      · rintro - j ⟨h1, h2, -⟩
        rw [List.getElem?_eq_some_iff] at h2
        obtain ⟨hlt, -⟩ := h2
        simp at hlt
        omega
    | c₁ :: rest =>
      have hunf : getLeftmostComment (c₀ :: c₁ :: rest) =
          if c₁ = '%' ∧ c₀ ≠ '\\' then some 1
          else (getLeftmostComment (c₁ :: rest)).map (· + 1) := by
        show glcGo c₀ (c₁ :: rest) 1 = _
        by_cases h : c₁ = '%' ∧ c₀ ≠ '\\'
        · simp [glcGo, h]
        · simp only [glcGo, if_neg h]
          show glcGo c₁ rest (1 + 1) = _
          rw [glcGo_shift]
          rfl
      by_cases h : c₁ = '%' ∧ c₀ ≠ '\\'
      · rw [hunf, if_pos h]
        constructor
        · intro i hi
          obtain rfl : i = 1 := by simpa using hi.symm
          refine ⟨(commentAt_cons_one c₀ c₁ rest).2 h, ?_⟩
          rintro j ⟨hj, -, -⟩
          omega
        · intro hnone; simp at hnone
      · rw [hunf, if_neg h]
        constructor
        · intro i hi
          rw [Option.map_eq_some'] at hi
          obtain ⟨i', hi', rfl⟩ := hi
          obtain ⟨hCA, hmin⟩ := ih.1 i' hi'
          have hi'1 : 1 ≤ i' := hCA.1
          refine ⟨(commentAt_cons_succ c₀ (c₁ :: rest) i' hi'1).2 hCA, ?_⟩
          intro j hj
          have hj1 : 1 ≤ j := hj.1
          match j, hj1 with
          | 1, _ =>
            exact absurd ((commentAt_cons_one c₀ c₁ rest).1 hj) h
          | (j' + 2), _ =>
            have : CommentAt (c₁ :: rest) (j' + 1) :=
              (commentAt_cons_succ c₀ (c₁ :: rest) (j' + 1) (by omega)).1 hj
            have := hmin (j' + 1) this
            omega
        · intro hnone
          rw [Option.map_eq_none'] at hnone
          have hall := ih.2 hnone
          intro j hj
          have hj1 : 1 ≤ j := hj.1
          match j, hj1 with
          | 1, _ =>
            exact absurd ((commentAt_cons_one c₀ c₁ rest).1 hj) h
          | (j' + 2), _ =>
            exact hall (j' + 1)
              ((commentAt_cons_succ c₀ (c₁ :: rest) (j' + 1) (by omega)).1 hj)

/-- C2.  A line whose first non-whitespace character is not `%` and whose
whitespace-stripped last character is not `%` is truncated exactly at the
leftmost unescaped marker (trailing whitespace of the kept prefix dropped,
a newline appended); if it has no unescaped marker it is passed through
unchanged. -/
theorem claim_C2 (l : List Char) (lPrev : Option (List Char))
    (h1 : (pyLstrip l).head? ≠ some '%')
    (h2 : (pyRstrip l).getLast? ≠ some '%') :
    (∀ i, CommentAt l i → (∀ j, j < i → ¬ CommentAt l j) →
        stripCommentsFromLine l lPrev = some (pyRstrip (l.take i) ++ ['\n'])) ∧
    ((∀ j, ¬ CommentAt l j) → stripCommentsFromLine l lPrev = some l) := by
  constructor
  · intro i hCA hmin
    have hglc : getLeftmostComment l = some i := by
      cases hg : getLeftmostComment l with
      | none => exact absurd hCA ((getLeftmostComment_spec l).2 hg i)
      | some i₀ =>
        obtain ⟨hCA₀, hmin₀⟩ := (getLeftmostComment_spec l).1 i₀ hg
        have h₁ : i₀ ≤ i := hmin₀ i hCA
        have h₂ : ¬ i₀ < i := fun hlt => hmin i₀ hlt hCA₀
        have : i₀ = i := by omega
        rw [this]
    unfold stripCommentsFromLine
    rw [if_neg h1, if_neg h2, hglc]
  · intro hnone
    have hglc : getLeftmostComment l = none := by
      cases hg : getLeftmostComment l with
      | none => rfl
      | some i₀ =>
        exact absurd ((getLeftmostComment_spec l).1 i₀ hg).1 (hnone i₀)
    unfold stripCommentsFromLine
    rw [if_neg h1, if_neg h2, hglc]

theorem claim_C2_witness :
    stripCommentsFromLine ['a', ' ', '%', 'b', '\n'] none = some ['a', '\n'] := by
  have h := claim_C2 ['a', ' ', '%', 'b', '\n'] none (by decide) (by decide)
  have h2 := h.1 2 (by decide) (by decide)
  exact h2

/-- C9.  If the input line ends with a newline, both generations of
`strip_comments_from_line` return `none` or a line that again ends with
a newline. -/
theorem claim_C9 (l : List Char) (lPrev : Option (List Char))
    (h : l.getLast? = some '\n') :
    (∀ r, stripCommentsFromLine l lPrev = some r → r.getLast? = some '\n') ∧
    (∀ r, stripCommentsFromLineV1 l lPrev = some r → r.getLast? = some '\n') := by
  constructor
  · intro r hr
    unfold stripCommentsFromLine at hr
    by_cases h1 : (pyLstrip l).head? = some '%'
    · rw [if_pos h1] at hr
      by_cases h2 : lPrev = some ['%', '\n'] ∨ lPrev = some ['\n']
      · rw [if_pos h2] at hr; exact absurd hr (by simp)
      · rw [if_neg h2] at hr
        obtain rfl : r = ['%', '\n'] := by simpa using hr.symm
        rfl
    · rw [if_neg h1] at hr
      by_cases h2 : (pyRstrip l).getLast? = some '%'
      · rw [if_pos h2] at hr
        obtain rfl : r = l := by simpa using hr.symm
        exact h
      · rw [if_neg h2] at hr
        cases hg : getLeftmostComment l with
        | none =>
          rw [hg] at hr
          obtain rfl : r = l := by simpa using hr.symm
          exact h
        | some i =>
          rw [hg] at hr
          obtain rfl : r = pyRstrip (l.take i) ++ ['\n'] := by simpa using hr.symm
          exact List.getLast?_concat _
  · intro r hr
    unfold stripCommentsFromLineV1 at hr
    by_cases h1 : l.head? = some '%'
    · rw [if_pos h1] at hr
      by_cases h2 : lPrev = some ['%', '\n'] ∨ lPrev = some ['\n']
      · rw [if_pos h2] at hr; exact absurd hr (by simp)
      · rw [if_neg h2] at hr
        obtain rfl : r = ['%', '\n'] := by simpa using hr.symm
        rfl
    · rw [if_neg h1] at hr
      by_cases h2 : (pyRstrip l).getLast? = some '%'
      · rw [if_pos h2] at hr
        obtain rfl : r = l := by simpa using hr.symm
        exact h
      · rw [if_neg h2] at hr
        cases hg : getLeftmostComment l with
        | none =>
          rw [hg] at hr
          obtain rfl : r = l := by simpa using hr.symm
          exact h
        | some i =>
          rw [hg] at hr
          obtain rfl : r = pyRstrip (l.take i) ++ ['\n'] := by simpa using hr.symm
          exact List.getLast?_concat _

theorem claim_C9_witness :
    (stripCommentsFromLine ['a', '%', 'c', '\n'] none = some ['a', '\n']) ∧
    (['a', '\n'] : List Char).getLast? = some '\n' := by
  refine ⟨by decide, ?_⟩
  exact (claim_C9 ['a', '%', 'c', '\n'] none (by decide)).1 ['a', '\n'] (by decide)

/-! ### Whole-file comment stripping (main2.py `strip_comments`) -/

/-- The `\end{document}` marker. -/
def endDocumentMarker : List Char :=
  ['\\', 'e', 'n', 'd', openBrace, 'd', 'o', 'c', 'u', 'm', 'e', 'n', 't', closeBrace]

/-- Literal match of `pat` at the start of a string. -/
def prefMatch : List Char → List Char → Bool
  | [], _ => true
  | _ :: _, [] => false
  | a :: as, b :: bs => a == b && prefMatch as bs

/-- Python's `in` on strings: `pat` occurs as a contiguous substring. -/
def containsSub (pat : List Char) : List Char → Bool
  | [] => pat.isEmpty
  | c :: t => prefMatch pat (c :: t) || containsSub pat t

/-- main2.py `strip_comments`, acting on the list of physical lines:
strip each line (threading the previously written line), drop `None`/empty
results, and after writing a line containing the end-of-document marker
write one extra newline and stop. -/
def stripCommentsLines : List (List Char) → Option (List Char) → List (List Char)
  | [], _ => []
  | l :: rest, lPrev =>
    match stripCommentsFromLine l lPrev with
    | none => stripCommentsLines rest lPrev
    | some l2 =>
      if l2 = [] then stripCommentsLines rest lPrev
      else if containsSub endDocumentMarker l2 then [l2, ['\n']]
      else l2 :: stripCommentsLines rest (some l2)

/-- Python `f.readlines()`: split a character stream into lines, each
keeping its trailing newline; the final line may lack one. -/
def pyReadlines : List Char → List (List Char)
  | [] => []
  | c :: s =>
    match pyReadlines s with
    | [] => [[c]]
    | l :: ls => if c = '\n' then [c] :: l :: ls else (c :: l) :: ls

/-- The whole-file comment-stripping pass on a document given as its
character contents (read lines, strip, write back). -/
def stripCommentsDoc (s : List Char) : List Char :=
  (stripCommentsLines (pyReadlines s) none).flatten

/-- `pyRstrip l` is a prefix of `l`; the removed suffix is whitespace. -/
theorem pyRstrip_eq_append (l : List Char) :
    ∃ t, (∀ c ∈ t, isPySpace c = true) ∧ pyRstrip l ++ t = l := by
  refine ⟨(l.reverse.takeWhile isPySpace).reverse, ?_, ?_⟩
  · intro c hc
    rw [List.mem_reverse] at hc
    exact List.mem_takeWhile_imp hc
  · unfold pyRstrip
    rw [← List.reverse_append, List.takeWhile_append_dropWhile, List.reverse_reverse]

/-- Stripping a line that `strip_comments_from_line` has already produced
(with the same previous-line argument) is the identity. -/
theorem stripLine_stable (l : List Char) (lPrev : Option (List Char)) (l2 : List Char)
    (h : stripCommentsFromLine l lPrev = some l2) :
    stripCommentsFromLine l2 lPrev = some l2 := by
  by_cases h1 : (pyLstrip l).head? = some '%'
  · rw [stripCommentsFromLine, if_pos h1] at h
    by_cases hp : lPrev = some ['%', '\n'] ∨ lPrev = some ['\n']
    · rw [if_pos hp] at h; cases h
    · rw [if_neg hp] at h
      injection h with h; subst h
      rw [stripCommentsFromLine,
        if_pos (show (pyLstrip ['%', '\n']).head? = some '%' by decide), if_neg hp]
  · rw [stripCommentsFromLine, if_neg h1] at h
    by_cases h2 : (pyRstrip l).getLast? = some '%'
    · rw [if_pos h2] at h
      injection h with h; subst h
      rw [stripCommentsFromLine, if_neg h1, if_pos h2]
    · rw [if_neg h2] at h
      cases hg : getLeftmostComment l with
      | none =>
        rw [hg] at h; injection h with h; subst h
        rw [stripCommentsFromLine, if_neg h1, if_neg h2, hg]
      | some i =>
        rw [hg] at h; injection h with h; subst h
        obtain ⟨hCA, hmin⟩ := (getLeftmostComment_spec l).1 i hg
        obtain ⟨t, -, ht⟩ := pyRstrip_eq_append (l.take i)
        have hlen1 : (pyRstrip (l.take i)).length + t.length = (l.take i).length := by
          have := congrArg List.length ht
          simpa using this
        have hlen2 : (l.take i).length ≤ i := by
          rw [List.length_take]; omega
        have hlenpfx : (pyRstrip (l.take i)).length ≤ i := by omega
        -- the truncated prefix consists of characters of `l` at positions `< i`
        have hchar : ∀ j, j < (pyRstrip (l.take i)).length →
            (pyRstrip (l.take i))[j]? = l[j]? := by
          intro j hj
          have h₁ : (l.take i)[j]? = (pyRstrip (l.take i))[j]? := by
            conv_lhs => rw [← ht]
            rw [List.getElem?_append, if_pos hj]
          rw [← h₁, List.getElem?_take, if_pos (by omega)]
        -- subgoal A: the stripped-of-leading-whitespace head is not '%'
        have hA : (pyLstrip (pyRstrip (l.take i) ++ ['\n'])).head? ≠ some '%' := by
          unfold pyLstrip
          rw [List.dropWhile_append]
          by_cases hemp : ((pyRstrip (l.take i)).dropWhile isPySpace).isEmpty
          · rw [if_pos hemp]
            decide
          · rw [if_neg hemp]
            cases hdw : (pyRstrip (l.take i)).dropWhile isPySpace with
            | nil => rw [hdw] at hemp; simp at hemp
            | cons c cs =>
              intro hcon
              simp only [hdw, List.cons_append, List.head?_cons,
                Option.some_inj] at hcon
              -- then `pyLstrip l` also starts with this '%'
              apply h1
              have hl : l = pyRstrip (l.take i) ++ (t ++ l.drop i) := by
                rw [← List.append_assoc, ht, List.take_append_drop]
              rw [hl]
              unfold pyLstrip
              rw [List.dropWhile_append, if_neg hemp, hdw]
              simp [hcon]
        -- subgoal B: the truncated line has no unescaped comment marker
        have hB : ∀ j, ¬ CommentAt (pyRstrip (l.take i) ++ ['\n']) j := by
          rintro j ⟨hj1, hj2, hj3⟩
          have hjlen : j < (pyRstrip (l.take i)).length + 1 := by
            rw [List.getElem?_eq_some_iff] at hj2
            obtain ⟨hlt, -⟩ := hj2
            simpa using hlt
          by_cases hjcase : j < (pyRstrip (l.take i)).length
          · -- an unescaped marker inside the kept prefix contradicts minimality
            have hj2' : l[j]? = some '%' := by
              rw [List.getElem?_append, if_pos hjcase] at hj2
              rw [← hchar j hjcase]; exact hj2
            have hj3' : l[j - 1]? ≠ some '\\' := by
              rw [List.getElem?_append, if_pos (by omega)] at hj3
              rw [← hchar (j - 1) (by omega)]; exact hj3
            have := hmin j ⟨hj1, hj2', hj3'⟩
            omega
          · have hj : j = (pyRstrip (l.take i)).length := by omega
            rw [List.getElem?_append, if_neg (by omega), hj] at hj2
            simp at hj2
        rw [stripCommentsFromLine, if_neg hA]
        by_cases hlay : (pyRstrip (pyRstrip (l.take i) ++ ['\n'])).getLast? = some '%'
        · rw [if_pos hlay]
        · rw [if_neg hlay]
          cases hg2 : getLeftmostComment (pyRstrip (l.take i) ++ ['\n']) with
          | none => rfl
          | some i₀ =>
            exact absurd ((getLeftmostComment_spec _).1 i₀ hg2).1 (hB i₀)

/-- The line-list comment-stripping pass is idempotent (for any
previous-line seed). -/
theorem stripLines_idem (ls : List (List Char)) : ∀ lPrev,
    stripCommentsLines (stripCommentsLines ls lPrev) lPrev =
      stripCommentsLines ls lPrev := by
  induction ls with
  | nil => intro lPrev; rfl
  | cons l rest ih =>
    intro lPrev
    cases hstrip : stripCommentsFromLine l lPrev with
    | none =>
      have e : stripCommentsLines (l :: rest) lPrev = stripCommentsLines rest lPrev := by
        simp only [stripCommentsLines, hstrip]
      rw [e]; exact ih lPrev
    | some l2 =>
      have hst := stripLine_stable l lPrev l2 hstrip
      by_cases he : l2 = []
      · have e : stripCommentsLines (l :: rest) lPrev = stripCommentsLines rest lPrev := by
          simp only [stripCommentsLines, hstrip, if_pos he]
        rw [e]; exact ih lPrev
      · by_cases hm : containsSub endDocumentMarker l2 = true
        · have e : stripCommentsLines (l :: rest) lPrev = [l2, ['\n']] := by
            simp only [stripCommentsLines, hstrip, if_neg he, if_pos hm]
          have e2 : stripCommentsLines [l2, ['\n']] lPrev = [l2, ['\n']] := by
            simp only [stripCommentsLines, hst, if_neg he, if_pos hm]
          rw [e, e2]
        · have e : stripCommentsLines (l :: rest) lPrev =
              l2 :: stripCommentsLines rest (some l2) := by
            simp only [stripCommentsLines, hstrip, if_neg he, if_neg hm]
          have e2 : stripCommentsLines (l2 :: stripCommentsLines rest (some l2)) lPrev =
              l2 :: stripCommentsLines (stripCommentsLines rest (some l2)) (some l2) := by
            simp only [stripCommentsLines, hst, if_neg he, if_neg hm]
          rw [e, e2, ih (some l2)]

/-- A well-formed physical line: ends with a newline and contains no
interior newline. -/
def LineNT (l : List Char) : Prop := ∃ m, '\n' ∉ m ∧ l = m ++ ['\n']

theorem pyReadlines_ne_nil (s : List Char) (h : s ≠ []) : pyReadlines s ≠ [] := by
  match s with
  | c :: s' =>
    rw [pyReadlines]
    cases pyReadlines s' with
    | nil => simp
    | cons l ls => by_cases hc : c = '\n' <;> simp [hc]

theorem pyReadlines_append_line (m : List Char) (hm : '\n' ∉ m) (s : List Char) :
    pyReadlines (m ++ '\n' :: s) = (m ++ ['\n']) :: pyReadlines s := by
  induction m with
  | nil =>
    simp only [List.nil_append]
    rw [pyReadlines]
    cases hps : pyReadlines s with
    | nil => simp
    | cons l ls => simp
  | cons c m' ih =>
    have hc : c ≠ '\n' := fun hceq => hm (by simp [hceq])
    have hm' : '\n' ∉ m' := fun hmem => hm (List.mem_cons_of_mem c hmem)
    simp only [List.cons_append]
    rw [pyReadlines, ih hm']
    simp [hc]

/-- For a document ending in a newline, every line produced by
`readlines` is newline-terminated with no interior newline. -/
theorem pyReadlines_NT (s : List Char) :
    s = [] ∨ s.getLast? = some '\n' → ∀ l ∈ pyReadlines s, LineNT l := by
  induction s with
  | nil => intro h l hl; simp [pyReadlines] at hl
  | cons c s' ih =>
    intro h l hl
    rcases h with h | h
    · simp at h
    cases s' with
    | nil =>
      have hc : c = '\n' := by simpa using h
      subst hc
      have he : pyReadlines ['\n'] = [['\n']] := rfl
      rw [he] at hl
      simp at hl; subst hl
      exact ⟨[], by simp, rfl⟩
    | cons c₁ s'' =>
      have hlast : (c₁ :: s'').getLast? = some '\n' := by
        rwa [List.getLast?_cons_cons] at h
      have ihs := ih (Or.inr hlast)
      rw [pyReadlines] at hl
      cases hps : pyReadlines (c₁ :: s'') with
      | nil => exact absurd hps (pyReadlines_ne_nil _ (by simp))
      | cons l₀ ls =>
        rw [hps] at hl
        have hl2 : l ∈ if c = '\n' then [c] :: l₀ :: ls else (c :: l₀) :: ls := hl
        by_cases hc : c = '\n'
        · rw [if_pos hc] at hl2
          rcases List.mem_cons.1 hl2 with rfl | hl'
          · exact ⟨[], by simp, by simp [hc]⟩
          · exact ihs l (by rw [hps]; exact hl')
        · rw [if_neg hc] at hl2
          rcases List.mem_cons.1 hl2 with rfl | hl'
          · have h₀ : LineNT l₀ := ihs l₀ (by rw [hps]; exact List.mem_cons_self _ _)
            obtain ⟨m, hmm, rfl⟩ := h₀
            refine ⟨c :: m, ?_, by simp⟩
            intro hmem
            rcases List.mem_cons.1 hmem with hh | hh
            · exact hc hh.symm
            · exact hmm hh
          · exact ihs l (by rw [hps]; exact List.mem_cons_of_mem _ hl')

/-- Splitting the concatenation of well-formed lines recovers them. -/
theorem pyReadlines_flatten (ls : List (List Char)) (h : ∀ l ∈ ls, LineNT l) :
    pyReadlines ls.flatten = ls := by
  induction ls with
  | nil => rfl
  | cons l ls' ih =>
    obtain ⟨m, hm, rfl⟩ := h _ (List.mem_cons_self _ _)
    have e : ((m ++ ['\n']) :: ls').flatten = m ++ '\n' :: ls'.flatten := by
      simp
    rw [e, pyReadlines_append_line m hm,
      ih (fun x hx => h x (List.mem_cons_of_mem _ hx))]

/-- The single-line stripper preserves well-formed lines. -/
theorem stripLine_NT (l : List Char) (lPrev : Option (List Char)) (l2 : List Char)
    (hNT : LineNT l) (h : stripCommentsFromLine l lPrev = some l2) : LineNT l2 := by
  by_cases h1 : (pyLstrip l).head? = some '%'
  · rw [stripCommentsFromLine, if_pos h1] at h
    by_cases hp : lPrev = some ['%', '\n'] ∨ lPrev = some ['\n']
    · rw [if_pos hp] at h; cases h
    · rw [if_neg hp] at h
      injection h with h; subst h
      exact ⟨['%'], by decide, rfl⟩
  · rw [stripCommentsFromLine, if_neg h1] at h
    by_cases h2 : (pyRstrip l).getLast? = some '%'
    · rw [if_pos h2] at h
      injection h with h; subst h
      exact hNT
    · rw [if_neg h2] at h
      cases hg : getLeftmostComment l with
      | none =>
        rw [hg] at h; injection h with h; subst h
        exact hNT
      | some i =>
        rw [hg] at h; injection h with h; subst h
        obtain ⟨m, hm, rfl⟩ := hNT
        have hCA := ((getLeftmostComment_spec _).1 i hg).1
        have hi : i < (m ++ ['\n']).length := by
          have := hCA.2.1
          rw [List.getElem?_eq_some_iff] at this
          exact this.1
        have him : i ≤ m.length := by
          simp at hi; omega
        have htake : (m ++ ['\n']).take i = m.take i :=
          List.take_append_of_le_length him
        refine ⟨pyRstrip ((m ++ ['\n']).take i), ?_, rfl⟩
        rw [htake]
        intro hmem
        obtain ⟨t, -, ht⟩ := pyRstrip_eq_append (m.take i)
        have : '\n' ∈ m.take i := by
          rw [← ht]; exact List.mem_append_left _ hmem
        exact hm (List.take_subset i m this)

/-- The line-list stripping pass emits only well-formed lines. -/
theorem stripLines_NT (ls : List (List Char)) : ∀ lPrev, (∀ l ∈ ls, LineNT l) →
    ∀ l2 ∈ stripCommentsLines ls lPrev, LineNT l2 := by
  induction ls with
  | nil => intro lPrev _ l2 hl2; simp [stripCommentsLines] at hl2
  | cons l rest ih =>
    intro lPrev h l2 hl2
    have hNTl : LineNT l := h l (List.mem_cons_self _ _)
    have hrest : ∀ x ∈ rest, LineNT x := fun x hx => h x (List.mem_cons_of_mem _ hx)
    cases hstrip : stripCommentsFromLine l lPrev with
    | none =>
      rw [show stripCommentsLines (l :: rest) lPrev = stripCommentsLines rest lPrev by
        simp only [stripCommentsLines, hstrip]] at hl2
      exact ih lPrev hrest l2 hl2
    | some l3 =>
      by_cases he : l3 = []
      · rw [show stripCommentsLines (l :: rest) lPrev = stripCommentsLines rest lPrev by
          simp only [stripCommentsLines, hstrip, if_pos he]] at hl2
        exact ih lPrev hrest l2 hl2
      · by_cases hmk : containsSub endDocumentMarker l3 = true
        · rw [show stripCommentsLines (l :: rest) lPrev = [l3, ['\n']] by
            simp only [stripCommentsLines, hstrip, if_neg he, if_pos hmk]] at hl2
          rcases List.mem_cons.1 hl2 with rfl | hl2'
          · exact stripLine_NT l lPrev l2 hNTl hstrip
          · have : l2 = ['\n'] := by simpa using hl2'
            subst this
            exact ⟨[], by simp, rfl⟩
        · rw [show stripCommentsLines (l :: rest) lPrev =
              l3 :: stripCommentsLines rest (some l3) by
            simp only [stripCommentsLines, hstrip, if_neg he, if_neg hmk]] at hl2
          rcases List.mem_cons.1 hl2 with rfl | hl2'
          · exact stripLine_NT l lPrev l2 hNTl hstrip
          · exact ih (some l3) hrest l2 hl2'

/-- C7 counterexample.  For the document consisting of the single line
`\end{document}` with no trailing newline, the whole-file pass is not
idempotent: the first pass appends a newline after the marker line, and
the second pass appends yet another. -/
theorem claim_C7_counterexample :
    stripCommentsDoc (stripCommentsDoc endDocumentMarker) ≠
      stripCommentsDoc endDocumentMarker := by decide

/-- C7 (amended).  For every document that is empty or ends with a
newline, the whole-file comment-stripping pass is idempotent. -/
theorem claim_C7_amended (s : List Char) (h : s = [] ∨ s.getLast? = some '\n') :
    stripCommentsDoc (stripCommentsDoc s) = stripCommentsDoc s := by
  have hNT := pyReadlines_NT s h
  have hNT2 := stripLines_NT (pyReadlines s) none hNT
  unfold stripCommentsDoc
  rw [pyReadlines_flatten _ hNT2, stripLines_idem]

theorem claim_C7_witness :
    stripCommentsDoc (stripCommentsDoc ['a', ' ', '%', 'x', '\n']) =
      stripCommentsDoc ['a', ' ', '%', 'x', '\n'] :=
  claim_C7_amended ['a', ' ', '%', 'x', '\n'] (Or.inr (by decide))

/-! ### Command substitution (main2.py `_replace_all`,
`Copier._replace_defs_for_match`) -/

/-- Recursion core for `_replace_all`, structurally recursive on a fuel
that bounds the number of scan steps (each step consumes at least one
character, so the input length is enough fuel). -/
def replaceAllGo (rep : List (List Char × List Char)) : Nat → List Char → List Char
  | _, [] => []
  | 0, _ :: _ => []
  | fuel + 1, c :: s =>
    (rep.find? (fun kv => prefMatch kv.1 (c :: s))).elim
      (c :: replaceAllGo rep fuel s)
      (fun kv => kv.2 ++ replaceAllGo rep fuel (s.drop (kv.1.length - 1)))

/-- main2.py `_replace_all(s, rep)`: this is `re.sub` on the alternation
of the escaped keys of `rep`.  Scan `s` left to right; at each position
substitute the first key of `rep` (in insertion order) that matches
there and continue after the matched text; otherwise copy the character. -/
def replaceAll (rep : List (List Char × List Char)) (l : List Char) : List Char :=
  replaceAllGo rep l.length l

theorem replaceAllGo_fuel (rep : List (List Char × List Char)) :
    ∀ fuel l fuel2, l.length ≤ fuel → l.length ≤ fuel2 →
      replaceAllGo rep fuel l = replaceAllGo rep fuel2 l := by
  intro fuel
  induction fuel with
  | zero =>
    intro l fuel2 h1 _
    have hl : l = [] := by
      cases l with
      | nil => rfl
      | cons a b => simp at h1
    subst hl
    cases fuel2 <;> rfl
  | succ f ihf =>
    intro l fuel2 h1 h2
    cases l with
    | nil => cases fuel2 <;> rfl
    | cons c s =>
      cases fuel2 with
      | zero => simp at h2
      | succ f2 =>
        show (rep.find? (fun kv => prefMatch kv.1 (c :: s))).elim
            (c :: replaceAllGo rep f s)
            (fun kv => kv.2 ++ replaceAllGo rep f (s.drop (kv.1.length - 1))) =
          (rep.find? (fun kv => prefMatch kv.1 (c :: s))).elim
            (c :: replaceAllGo rep f2 s)
            (fun kv => kv.2 ++ replaceAllGo rep f2 (s.drop (kv.1.length - 1)))
        cases hf : rep.find? (fun kv => prefMatch kv.1 (c :: s)) with
        | none =>
          show c :: replaceAllGo rep f s = c :: replaceAllGo rep f2 s
          rw [ihf s f2 (by simpa using h1) (by simpa using h2)]
        | some kv =>
          show kv.2 ++ replaceAllGo rep f (s.drop (kv.1.length - 1)) =
            kv.2 ++ replaceAllGo rep f2 (s.drop (kv.1.length - 1))
          have hd : (s.drop (kv.1.length - 1)).length ≤ s.length := by
            simp [List.length_drop]
          rw [ihf (s.drop (kv.1.length - 1)) f2 (by simp at h1; omega)
            (by simp at h2; omega)]

theorem replaceAll_cons_none (rep : List (List Char × List Char)) (c : Char)
    (s : List Char)
    (hf : rep.find? (fun kv => prefMatch kv.1 (c :: s)) = none) :
    replaceAll rep (c :: s) = c :: replaceAll rep s := by
  show (rep.find? (fun kv => prefMatch kv.1 (c :: s))).elim
      (c :: replaceAllGo rep s.length s)
      (fun kv => kv.2 ++ replaceAllGo rep s.length (s.drop (kv.1.length - 1))) = _
  rw [hf]
  rfl

theorem replaceAll_cons_some (rep : List (List Char × List Char)) (c : Char)
    (s : List Char) (kv : List Char × List Char)
    (hf : rep.find? (fun kv2 => prefMatch kv2.1 (c :: s)) = some kv) :
    replaceAll rep (c :: s) = kv.2 ++ replaceAll rep (s.drop (kv.1.length - 1)) := by
  show (rep.find? (fun kv2 => prefMatch kv2.1 (c :: s))).elim
      (c :: replaceAllGo rep s.length s)
      (fun kv2 => kv2.2 ++ replaceAllGo rep s.length (s.drop (kv2.1.length - 1))) = _
  rw [hf]
  show kv.2 ++ replaceAllGo rep s.length (s.drop (kv.1.length - 1)) = _
  congr 1
  exact replaceAllGo_fuel rep s.length (s.drop (kv.1.length - 1)) _
    (by simp [List.length_drop]) (le_refl _)

/-- The replacement map `{'#1': args[0], '#2': args[1], …}` built by
`_replace_defs_for_match`, in Python dict insertion order. -/
def mkReplacements (args : List (List Char)) (start : Nat) :
    List (List Char × List Char) :=
  match args with
  | [] => []
  | a :: rest => ('#' :: (Nat.repr start).data, a) :: mkReplacements rest (start + 1)

/-- main2.py `Copier._replace_defs_for_match` for a command of positive
arity: check the argument count (`assert_exc … ParseException` on a
mismatch) and substitute `#1`, `#2`, … by the supplied argument texts. -/
def replaceDefsForMatch (definition : List Char) (numArgs : Nat)
    (args : List (List Char)) : Except Unit (List Char) :=
  if args.length = numArgs then
    .ok (replaceAll (mkReplacements args 1) definition)
  else .error ()

/-- A command body presented as literal segments and positional
placeholders `#k`. -/
inductive BodySeg
  | lit : List Char → BodySeg
  | pos : Nat → BodySeg
deriving DecidableEq

/-- Render a segmented body to its raw text. -/
def renderBody : List BodySeg → List Char
  | [] => []
  | BodySeg.lit t :: r => t ++ renderBody r
  | BodySeg.pos k :: r => '#' :: (Nat.repr k).data ++ renderBody r

/-- Render a segmented body with each placeholder `#k` replaced by the
`k`-th supplied argument text verbatim. -/
def renderExpansion (args : List (List Char)) : List BodySeg → List Char
  | [] => []
  | BodySeg.lit t :: r => t ++ renderExpansion args r
  | BodySeg.pos k :: r => args.getD (k - 1) [] ++ renderExpansion args r

theorem mkReplacements_keys (args : List (List Char)) : ∀ start,
    ∀ kv ∈ mkReplacements args start, ∃ kt, kv.1 = '#' :: kt := by
  induction args with
  | nil => intro start kv h; simp [mkReplacements] at h
  | cons a rest ih =>
    intro start kv h
    rw [mkReplacements] at h
    rcases List.mem_cons.1 h with rfl | h'
    · exact ⟨(Nat.repr start).data, rfl⟩
    · exact ih (start + 1) kv h'

/-- Copying a hash-free literal through `_replace_all` with `#k` keys. -/
theorem replaceAll_lit (rep : List (List Char × List Char))
    (hkeys : ∀ kv ∈ rep, ∃ kt, kv.1 = '#' :: kt) :
    ∀ (t : List Char), '#' ∉ t →
      ∀ s, replaceAll rep (t ++ s) = t ++ replaceAll rep s := by
  intro t
  induction t with
  | nil => intro _ s; simp
  | cons c t' ih =>
    intro hns s
    have hc : c ≠ '#' := fun hcc => hns (by simp [hcc])
    have hns' : '#' ∉ t' := fun hmem => hns (List.mem_cons_of_mem _ hmem)
    have hfind : rep.find? (fun kv => prefMatch kv.1 (c :: (t' ++ s))) = none := by
      rw [List.find?_eq_none]
      intro kv hkv
      obtain ⟨kt, hkt⟩ := hkeys kv hkv
      rw [hkt]
      simp only [prefMatch, Bool.and_eq_true, beq_iff_eq]
      intro hcon
      exact hc hcon.1.symm
    rw [List.cons_append, replaceAll_cons_none rep c (t' ++ s) hfind, ih hns' s]
    rfl

theorem repr_digit (k : Nat) (h1 : 1 ≤ k) (h2 : k ≤ 9) :
    (Nat.repr k).data = [Nat.digitChar k] := by
  interval_cases k <;> rfl

theorem digitChar_injective9 (m k : Nat) (hm1 : 1 ≤ m) (hm9 : m ≤ 9)
    (hk1 : 1 ≤ k) (hk9 : k ≤ 9) (h : Nat.digitChar m = Nat.digitChar k) :
    m = k := by
  interval_cases m <;> interval_cases k <;>
    first
    | rfl
    | exact absurd h (by decide)

/-- For arity at most 9 the alternation finds exactly the key `#k`. -/
theorem find?_mkReplacements (args : List (List Char)) : ∀ (start k : Nat)
    (t : List Char), 1 ≤ start → start + args.length ≤ 10 → start ≤ k →
    k < start + args.length →
    (mkReplacements args start).find?
        (fun kv => prefMatch kv.1 ('#' :: Nat.digitChar k :: t)) =
      some (['#', Nat.digitChar k], args.getD (k - start) []) := by
  induction args with
  | nil =>
    intro start k t h1 h2 h3 h4
    simp at h4
    omega
  | cons a rest ih =>
    intro start k t h1 h2 h3 h4
    have hs9 : start ≤ 9 := by simp at h2; omega
    have hkey : ('#' :: (Nat.repr start).data) = ['#', Nat.digitChar start] := by
      rw [repr_digit start h1 hs9]
    rw [mkReplacements]
    by_cases hsk : start = k
    · rw [List.find?_cons_of_pos]
      · rw [hkey, hsk]
        have h0 : k - k = 0 := by omega
        rw [h0]
        rfl
      · show prefMatch ('#' :: (Nat.repr start).data) ('#' :: Nat.digitChar k :: t) = true
        rw [hkey, hsk]
        simp [prefMatch]
    · rw [List.find?_cons_of_neg]
      · have hrec := ih (start + 1) k t (by omega) (by simp at h2 ⊢; omega)
          (by omega) (by simp at h4 ⊢; omega)
        rw [hrec]
        have hks : k - start = (k - (start + 1)) + 1 := by omega
        rw [hks]
        rfl
      · show ¬ prefMatch ('#' :: (Nat.repr start).data)
            ('#' :: Nat.digitChar k :: t) = true
        rw [hkey]
        simp only [prefMatch, Bool.and_eq_true, beq_iff_eq]
        rintro ⟨-, hdd, -⟩
        exact hsk (digitChar_injective9 start k h1 hs9 (by omega)
          (by simp at h2 h4; omega) hdd)

/-- Substituting at a placeholder `#k` for arity at most 9. -/
theorem replaceAll_pos (args : List (List Char)) (k : Nat) (t : List Char)
    (hlen : args.length ≤ 9) (hk1 : 1 ≤ k) (hk : k ≤ args.length) :
    replaceAll (mkReplacements args 1) ('#' :: (Nat.repr k).data ++ t) =
      args.getD (k - 1) [] ++ replaceAll (mkReplacements args 1) t := by
  have hk9 : k ≤ 9 := le_trans hk hlen
  rw [repr_digit k hk1 hk9]
  show replaceAll (mkReplacements args 1) ('#' :: Nat.digitChar k :: t) = _
  rw [replaceAll_cons_some (mkReplacements args 1) '#' (Nat.digitChar k :: t)
    (['#', Nat.digitChar k], args.getD (k - 1) [])
    (find?_mkReplacements args 1 k t (le_refl 1) (by omega) hk1 (by omega))]
  rfl

/-- The core of the amended C1: for arity at most 9, `_replace_all`
realises verbatim positional substitution on any body. -/
theorem replaceAll_render (args : List (List Char)) (hlen : args.length ≤ 9) :
    ∀ segs, (∀ t, BodySeg.lit t ∈ segs → '#' ∉ t) →
      (∀ k, BodySeg.pos k ∈ segs → 1 ≤ k ∧ k ≤ args.length) →
      replaceAll (mkReplacements args 1) (renderBody segs) =
        renderExpansion args segs := by
  intro segs
  induction segs with
  | nil => intro _ _; rfl
  | cons seg r ih =>
    intro hlit hpos
    have hlit' : ∀ t, BodySeg.lit t ∈ r → '#' ∉ t :=
      fun t ht => hlit t (List.mem_cons_of_mem _ ht)
    have hpos' : ∀ k, BodySeg.pos k ∈ r → 1 ≤ k ∧ k ≤ args.length :=
      fun k hk => hpos k (List.mem_cons_of_mem _ hk)
    cases seg with
    | lit t =>
      have hnt : '#' ∉ t := hlit t (List.mem_cons_self _ _)
      show replaceAll (mkReplacements args 1) (t ++ renderBody r) = _
      rw [replaceAll_lit _ (mkReplacements_keys args 1) t hnt, ih hlit' hpos']
      rfl
    | pos k =>
      obtain ⟨hk1, hk2⟩ := hpos k (List.mem_cons_self _ _)
      show replaceAll (mkReplacements args 1) ('#' :: (Nat.repr k).data ++ renderBody r) = _
      rw [replaceAll_pos args k _ hlen hk1 hk2, ih hlit' hpos']
      rfl

/-- C1 counterexample.  With arity 10, the body `#10` and ten supplied
arguments, substitution yields the first argument followed by the literal
character `0` — not the tenth argument, as the claim requires: the
alternation `#1|#2|…|#10` matches `#1` at the occurrence of `#10`. -/
theorem claim_C1_counterexample :
    replaceDefsForMatch ['#', '1', '0'] 10
        [['A'], ['B'], ['C'], ['D'], ['E'], ['F'], ['G'], ['H'], ['I'], ['J']] =
      Except.ok ['A', '0'] ∧
    replaceDefsForMatch ['#', '1', '0'] 10
        [['A'], ['B'], ['C'], ['D'], ['E'], ['F'], ['G'], ['H'], ['I'], ['J']] ≠
      Except.ok ['J'] := by
  refine ⟨rfl, ?_⟩
  intro h
  rw [show replaceDefsForMatch ['#', '1', '0'] 10
      [['A'], ['B'], ['C'], ['D'], ['E'], ['F'], ['G'], ['H'], ['I'], ['J']] =
      Except.ok ['A', '0'] from rfl] at h
  injection h with h2
  exact absurd h2 (by decide)

/-- C1 (amended).  For every stored definition of arity `n ≤ 9` and an
invocation supplying exactly `n` bracketed arguments,
`_replace_defs_for_match` substitutes each placeholder `#k` (1 ≤ k ≤ n)
by the `k`-th argument text verbatim; a mismatched argument count raises
`ParseException`. -/
theorem claim_C1_amended (segs : List BodySeg) (args : List (List Char))
    (numArgs : Nat) (hn : numArgs ≤ 9)
    (hlit : ∀ t, BodySeg.lit t ∈ segs → '#' ∉ t)
    (hpos : ∀ k, BodySeg.pos k ∈ segs → 1 ≤ k ∧ k ≤ numArgs) :
    (args.length = numArgs →
      replaceDefsForMatch (renderBody segs) numArgs args =
        Except.ok (renderExpansion args segs)) ∧
    (args.length ≠ numArgs →
      replaceDefsForMatch (renderBody segs) numArgs args = Except.error ()) := by
  constructor
  · intro hlen
    unfold replaceDefsForMatch
    rw [if_pos hlen]
    congr 1
    exact replaceAll_render args (hlen ▸ hn) segs hlit (hlen ▸ hpos)
  · intro hlen
    unfold replaceDefsForMatch
    rw [if_neg hlen]

theorem claim_C1_witness :
    replaceDefsForMatch
        (renderBody [BodySeg.lit ['x'], BodySeg.pos 1, BodySeg.lit ['y']]) 1
        [['Q']] =
      Except.ok
        (renderExpansion [['Q']] [BodySeg.lit ['x'], BodySeg.pos 1, BodySeg.lit ['y']]) := by
  have h := claim_C1_amended [BodySeg.lit ['x'], BodySeg.pos 1, BodySeg.lit ['y']]
    [['Q']] 1 (by decide)
    (by
      intro t ht
      simp only [List.mem_cons, List.not_mem_nil, or_false] at ht
      rcases ht with ht | ht | ht
      · injection ht with ht; subst ht; decide
      · exact BodySeg.noConfusion ht
      · injection ht with ht; subst ht; decide)
    (by
      intro k hk
      simp only [List.mem_cons, List.not_mem_nil, or_false] at hk
      rcases hk with hk | hk | hk
      · exact BodySeg.noConfusion hk
      · injection hk with hk; subst hk; exact ⟨le_refl 1, le_refl 1⟩
      · exact BodySeg.noConfusion hk)
  exact h.1 (by decide)

deriving instance DecidableEq for Except

/-! ### Command definition table (main2.py `Copier._extract_definition`) -/

/-- Lookup in the `{name -> (body, arity)}` dictionary. -/
def tableLookup (table : List (List Char × (List Char × Nat))) (name : List Char) :
    Option (List Char × Nat) :=
  match table with
  | [] => none
  | kv :: rest => if kv.1 = name then some kv.2 else tableLookup rest name

/-- main2.py `Copier._extract_definition`, the table-update step: if the
name is already present, a plain `\newcommand` raises `ParseException`;
the `\renewcommand` variant deletes the old entry first.  The new
definition is then stored (Python dict assignment of a fresh key appends
in insertion order). -/
def extractDefinitionUpdate (table : List (List Char × (List Char × Nat)))
    (isRenew : Bool) (name body : List Char) (numArgs : Nat) :
    Except Unit (List (List Char × (List Char × Nat))) :=
  if (tableLookup table name).isSome then
    if isRenew then
      .ok ((table.filter (fun kv => decide (kv.1 ≠ name))) ++ [(name, (body, numArgs))])
    else .error ()
  else .ok (table ++ [(name, (body, numArgs))])

theorem tableLookup_append_of_none (t1 t2 : List (List Char × (List Char × Nat)))
    (n : List Char) (h : tableLookup t1 n = none) :
    tableLookup (t1 ++ t2) n = tableLookup t2 n := by
  induction t1 with
  | nil => rfl
  | cons kv rest ih =>
    rw [tableLookup] at h
    by_cases hk : kv.1 = n
    · rw [if_pos hk] at h; cases h
    · rw [if_neg hk] at h
      show tableLookup (kv :: (rest ++ t2)) n = _
      rw [tableLookup, if_neg hk]
      exact ih h

theorem tableLookup_append_of_some (t1 t2 : List (List Char × (List Char × Nat)))
    (n : List Char) (v : List Char × Nat) (h : tableLookup t1 n = some v) :
    tableLookup (t1 ++ t2) n = some v := by
  induction t1 with
  | nil => cases h
  | cons kv rest ih =>
    rw [tableLookup] at h
    by_cases hk : kv.1 = n
    · rw [if_pos hk] at h
      show tableLookup (kv :: (rest ++ t2)) n = _
      rw [tableLookup, if_pos hk]
      exact h
    · rw [if_neg hk] at h
      show tableLookup (kv :: (rest ++ t2)) n = _
      rw [tableLookup, if_neg hk]
      exact ih h

theorem tableLookup_filter_ne (table : List (List Char × (List Char × Nat)))
    (name : List Char) :
    tableLookup (table.filter (fun kv => decide (kv.1 ≠ name))) name = none := by
  induction table with
  | nil => rfl
  | cons kv rest ih =>
    by_cases hk : kv.1 = name
    · rw [List.filter_cons_of_neg (by simp [hk])]
      exact ih
    · rw [List.filter_cons_of_pos (by simp [hk])]
      rw [tableLookup, if_neg hk]
      exact ih

theorem tableLookup_filter_other (table : List (List Char × (List Char × Nat)))
    (name n2 : List Char) (h : n2 ≠ name) :
    tableLookup (table.filter (fun kv => decide (kv.1 ≠ name))) n2 =
      tableLookup table n2 := by
  induction table with
  | nil => rfl
  | cons kv rest ih =>
    by_cases hk : kv.1 = name
    · rw [List.filter_cons_of_neg (by simp [hk])]
      rw [tableLookup, if_neg (by rw [hk]; exact fun hc => h hc.symm)]
      exact ih
    · rw [List.filter_cons_of_pos (by simp [hk])]
      by_cases hk2 : kv.1 = n2
      · rw [tableLookup, if_pos hk2, tableLookup, if_pos hk2]
      · rw [tableLookup, if_neg hk2, tableLookup, if_neg hk2]
        exact ih

theorem tableLookup_none_of_not_mem (table : List (List Char × (List Char × Nat)))
    (n : List Char) (h : tableLookup table n = none) :
    n ∉ table.map Prod.fst := by
  induction table with
  | nil => simp
  | cons kv rest ih =>
    rw [tableLookup] at h
    by_cases hk : kv.1 = n
    · rw [if_pos hk] at h; cases h
    · rw [if_neg hk] at h
      simp only [List.map_cons, List.mem_cons]
      rintro (hc | hc)
      · exact hk hc.symm
      · exact ih h hc

/-- C4.  Re-defining an existing command name raises `ParseException`
unless the directive is the explicit `\renewcommand` variant; on success
the old definition is gone, the new one is the unique entry for the
name, key uniqueness is preserved, and other names are untouched. -/
theorem claim_C4 (table : List (List Char × (List Char × Nat))) (isRenew : Bool)
    (name body : List Char) (numArgs : Nat)
    (hnodup : (table.map Prod.fst).Nodup) :
    ((tableLookup table name).isSome → isRenew = false →
      extractDefinitionUpdate table isRenew name body numArgs = .error ()) ∧
    (∀ t2, extractDefinitionUpdate table isRenew name body numArgs = .ok t2 →
      tableLookup t2 name = some (body, numArgs) ∧
      (t2.map Prod.fst).Nodup ∧
      ∀ n2, n2 ≠ name → tableLookup t2 n2 = tableLookup table n2) := by
  constructor
  · intro hsome hfalse
    unfold extractDefinitionUpdate
    rw [if_pos hsome, hfalse]
    rfl
  · intro t2 ht2
    unfold extractDefinitionUpdate at ht2
    by_cases hsome : (tableLookup table name).isSome
    · rw [if_pos hsome] at ht2
      cases isRenew with
      | false => cases ht2
      | true =>
        simp only [if_pos] at ht2
        injection ht2 with ht2
        subst ht2
        refine ⟨?_, ?_, ?_⟩
        · rw [tableLookup_append_of_none _ _ _ (tableLookup_filter_ne table name)]
          rw [tableLookup, if_pos rfl]
        · have hsub : (table.filter (fun kv => decide (kv.1 ≠ name))).Sublist table :=
            List.filter_sublist table
          have hmapsub := hsub.map Prod.fst
          have hnodup2 := hnodup.sublist hmapsub
          rw [List.map_append]
          rw [List.nodup_append]
          refine ⟨hnodup2, by simp, ?_⟩
          intro a ha hb
          have : a = name := by simpa using hb
          subst this
          obtain ⟨kv, hkv, hfst⟩ := List.mem_map.1 ha
          have := (List.mem_filter.1 hkv).2
          simp at this
          exact this (hfst ▸ rfl)
        · intro n2 hn2
          cases hlk : tableLookup (table.filter (fun kv => decide (kv.1 ≠ name))) n2 with
          | some v =>
            rw [tableLookup_append_of_some _ _ _ _ hlk]
            rw [tableLookup_filter_other table name n2 hn2] at hlk
            exact hlk.symm
          | none =>
            rw [tableLookup_append_of_none _ _ _ hlk]
            rw [tableLookup_filter_other table name n2 hn2] at hlk
            rw [hlk]
            rw [tableLookup, if_neg (fun hc => hn2 hc.symm)]
            rfl
    · rw [if_neg hsome] at ht2
      injection ht2 with ht2
      subst ht2
      have hnone : tableLookup table name = none := by
        cases h : tableLookup table name with
        | none => rfl
        | some v => rw [h] at hsome; simp at hsome
      refine ⟨?_, ?_, ?_⟩
      · rw [tableLookup_append_of_none _ _ _ hnone, tableLookup, if_pos rfl]
      · rw [List.map_append, List.nodup_append]
        refine ⟨hnodup, by simp, ?_⟩
        intro a ha hb
        have haname : a = name := by simpa using hb
        rw [haname] at ha
        exact tableLookup_none_of_not_mem table name hnone ha
      · intro n2 hn2
        cases hlk : tableLookup table n2 with
        | some v => rw [tableLookup_append_of_some _ _ _ _ hlk]
        | none =>
          rw [tableLookup_append_of_none _ _ _ hlk]
          rw [tableLookup, if_neg (fun hc => hn2 hc.symm)]
          rfl

theorem claim_C4_witness :
    extractDefinitionUpdate [(['f'], (['b'], 0))] true ['f'] ['c'] 1 =
      Except.ok [(['f'], (['c'], 1))] ∧
    tableLookup [(['f'], (['c'], 1))] ['f'] = some (['c'], 1) := by
  refine ⟨by decide, ?_⟩
  exact ((claim_C4 [(['f'], (['b'], 0))] true ['f'] ['c'] 1 (by decide)).2
    [(['f'], (['c'], 1))] (by decide)).1

/-! ### Include resolution (main2.py `Copier._real_path_for_static_file`,
`Copier._real_rel_path_for_tex_file`) -/

/-- The basename of a path (the part after the last `/`). -/
def basenameOf (p : List Char) : List Char :=
  (p.reverse.takeWhile (fun c => c != '/')).reverse

/-- `os.path.splitext(p)[1]`: the extension, i.e. the suffix of the
basename starting at its last dot — leading dots of the basename do not
count. -/
def extOf (p : List Char) : List Char :=
  let trimmed := (basenameOf p).dropWhile (fun c => c == '.')
  if trimmed.contains '.' then
    '.' :: (trimmed.reverse.takeWhile (fun c => c != '.')).reverse
  else []

/-- `glob.glob(base + '.*')` membership: `q` matches iff it extends
`base` by a dot and a (possibly empty) sequence of non-separator
characters. -/
def globMatchesBase (base q : List Char) : Bool :=
  prefMatch (base ++ ['.']) q && !((q.drop (base.length + 1)).contains '/')

/-- main2.py `Copier._real_path_for_static_file`: with a written
extension, the file must exist; without one, glob for `path.*` and
require exactly one candidate (`pop()` returns it), else raise
`ParseException`. -/
def realPathForStaticFile (fs : List (List Char)) (texPath : List Char) :
    Except Unit (List Char) :=
  if extOf texPath ≠ [] then
    if fs.contains texPath then .ok texPath else .error ()
  else
    match fs.filter (globMatchesBase texPath) with
    | [c] => .ok c
    | _ => .error ()

/-- main2.py `Copier._real_rel_path_for_tex_file`: with a written
extension, raise only if the file is missing and required; without one,
probe `path + ext` for each allowed extension and return the first hit;
when nothing exists, raise only if required (else return `None`). -/
def realRelPathForTexFile (fs : List (List Char)) (texPath : List Char)
    (possibleExtensions : List (List Char)) (mustExist : Bool) :
    Except Unit (Option (List Char)) :=
  if extOf texPath ≠ [] then
    if ¬ fs.contains texPath ∧ mustExist then .error ()
    else .ok (some texPath)
  else
    match possibleExtensions.find? (fun e => fs.contains (texPath ++ e)) with
    | some e => .ok (some (texPath ++ e))
    | none => if mustExist then .error () else .ok none

/-- C5 counterexample.  `\input{chapter}` with both `chapter.tex` and
`chapter.bak.tex` on disk: two files match `chapter.*`, yet the document
resolver silently resolves to `chapter.tex` instead of raising. -/
theorem claim_C5_counterexample :
    (([['c', 'h', 'a', 'p', 't', 'e', 'r', '.', 't', 'e', 'x'],
        ['c', 'h', 'a', 'p', 't', 'e', 'r', '.', 'b', 'a', 'k', '.', 't', 'e', 'x']].filter
      (globMatchesBase ['c', 'h', 'a', 'p', 't', 'e', 'r'])).length = 2) ∧
    realRelPathForTexFile
        [['c', 'h', 'a', 'p', 't', 'e', 'r', '.', 't', 'e', 'x'],
          ['c', 'h', 'a', 'p', 't', 'e', 'r', '.', 'b', 'a', 'k', '.', 't', 'e', 'x']]
        ['c', 'h', 'a', 'p', 't', 'e', 'r'] [['.', 't', 'e', 'x']] true =
      Except.ok (some ['c', 'h', 'a', 'p', 't', 'e', 'r', '.', 't', 'e', 'x']) := by
  constructor
  · decide
  · decide

/-- C5 (amended).  Only the static-file resolver globs: for an
extension-less path it errs whenever the number of `path.*` matches is
not exactly one, and returns the unique match otherwise.  The document
resolver instead probes `path + ext` for each allowed extension,
returning the first hit (never an ambiguity error), and errs only when
no probe hits and the target is required. -/
theorem claim_C5_amended (fs : List (List Char)) (p : List Char)
    (exts : List (List Char)) (mustExist : Bool) (hne : extOf p = []) :
    ((fs.filter (globMatchesBase p)).length ≠ 1 →
      realPathForStaticFile fs p = .error ()) ∧
    (∀ c, fs.filter (globMatchesBase p) = [c] →
      realPathForStaticFile fs p = .ok c) ∧
    (∀ e, exts.find? (fun e2 => fs.contains (p ++ e2)) = some e →
      realRelPathForTexFile fs p exts mustExist = .ok (some (p ++ e))) ∧
    ((∀ e ∈ exts, fs.contains (p ++ e) = false) → mustExist = true →
      realRelPathForTexFile fs p exts mustExist = .error ()) := by
  have hcond : ¬ extOf p ≠ [] := fun hc => hc hne
  refine ⟨?_, ?_, ?_, ?_⟩
  · intro hlen
    unfold realPathForStaticFile
    rw [if_neg hcond]
    cases hfil : fs.filter (globMatchesBase p) with
    | nil => rfl
    | cons c rest =>
      cases rest with
      | nil =>
        have : (fs.filter (globMatchesBase p)).length = 1 := by simp [hfil]
        exact absurd this hlen
      | cons c2 r2 => rfl
  · intro c hfil
    unfold realPathForStaticFile
    rw [if_neg hcond, hfil]
  · intro e hfind
    unfold realRelPathForTexFile
    rw [if_neg hcond, hfind]
  · intro hnone hmust
    unfold realRelPathForTexFile
    rw [if_neg hcond]
    have hfind : exts.find? (fun e2 => fs.contains (p ++ e2)) = none := by
      rw [List.find?_eq_none]
      intro e he
      rw [hnone e he]
      simp
    rw [hfind, hmust]
    rfl

theorem claim_C5_witness :
    realPathForStaticFile [['i', 'm', 'g', '.', 'p', 'n', 'g']] ['i', 'm', 'g'] =
      Except.ok ['i', 'm', 'g', '.', 'p', 'n', 'g'] :=
  (claim_C5_amended [['i', 'm', 'g', '.', 'p', 'n', 'g']] ['i', 'm', 'g'] [] false
    (by decide)).2.1 ['i', 'm', 'g', '.', 'p', 'n', 'g'] (by decide)

/-! ### Encoding retry (main.py `Copier.copy_all`) -/

/-- main.py `copy_all`'s encoding loop: try `_read_and_copy` with each
candidate encoding in order, `break` at the first that does not raise
`UnicodeDecodeError`; on exhaustion the `for … else` arm prints an error
message and the method returns normally.  `read e` says whether reading
with encoding `e` succeeds; the value is the encoding used (`none` after
exhaustion).  The `Except` codomain records that a raise would be
possible — and that this path never raises. -/
def copyAllEncodingLoop (read : Nat → Bool) : List Nat → Except Unit (Option Nat)
  | [] => .ok none
  | e :: rest => if read e then .ok (some e) else copyAllEncodingLoop read rest

/-- C6 counterexample.  When every candidate encoding fails, `copy_all`
returns normally (printing `ERR: …`); the run continues — it does not
end in a fatal error condition. -/
theorem claim_C6_counterexample :
    copyAllEncodingLoop (fun _ => false) [0, 1] = .ok none ∧
    copyAllEncodingLoop (fun _ => false) [0, 1] ≠ .error () := by
  refine ⟨rfl, ?_⟩
  intro h
  rw [show copyAllEncodingLoop (fun _ => false) [0, 1] = .ok none from rfl] at h
  cases h

/-- C6 (amended).  The walker tries the candidate encodings in order and
reads with the first that succeeds; when every candidate fails it prints
an error and returns normally — the run continues instead of aborting. -/
theorem claim_C6_amended (read : Nat → Bool) (encodings : List Nat) :
    copyAllEncodingLoop read encodings = .ok (encodings.find? read) := by
  induction encodings with
  | nil => rfl
  | cons e rest ih =>
    by_cases hr : read e = true
    · rw [copyAllEncodingLoop, if_pos hr, List.find?_cons_of_pos _ hr]
    · have hr2 : read e = false := by simpa using hr
      rw [copyAllEncodingLoop, if_neg (by simp [hr2]),
        List.find?_cons_of_neg _ (by simp [hr2]), ih]

/-! ### Output-directory guard (main.py `copy_latex`, `_rmtree_semi_safe`,
`_get_size`) -/

/-- main.py `_get_size(p, max_size)`: accumulate file sizes in walk
order, aborting with `None` as soon as the running total exceeds the
bound. -/
def getSizeGo (maxSize : Nat) : List Nat → Nat → Option Nat
  | [], total => some total
  | s :: rest, total =>
    if total + s > maxSize then none else getSizeGo maxSize rest (total + s)

/-- main.py `_get_size` from the start. -/
def getSize (sizes : List Nat) (maxSize : Nat) : Option Nat := getSizeGo maxSize sizes 0

/-- main.py `_rmtree_semi_safe` with its default 20 MB threshold: refuse
(raise `ValueError`, delete nothing) when `_get_size` aborted, otherwise
delete the tree. -/
def rmtreeSemiSafe (sizes : List Nat) : Except Unit Unit :=
  if (getSize sizes (20 * 1024 * 1024)).isSome then .ok () else .error ()

/-- The output-directory guard at the top of main.py `copy_latex`:
`dirSizes` is `none` when the directory does not exist, otherwise the
walk-order file sizes of the existing directory.  The `Bool` result says
whether the directory was removed; `error` models the `ValueError`
raised by `assert_exc` (at which point nothing has been deleted). -/
def copyLatexDirGuard (dirSizes : Option (List Nat)) (force : Bool) :
    Except Unit Bool :=
  match dirSizes with
  | none => .ok false
  | some sizes =>
    if force then
      match rmtreeSemiSafe sizes with
      | .ok () => .ok true
      | .error () => .error ()
    else .error ()

theorem getSizeGo_none_iff (maxSize : Nat) : ∀ (sizes : List Nat) (total : Nat),
    total ≤ maxSize →
    (getSizeGo maxSize sizes total = none ↔ maxSize < total + sizes.sum) := by
  intro sizes
  induction sizes with
  | nil =>
    intro total h
    constructor
    · intro hc; cases hc
    · intro hc; simp at hc; omega
  | cons s rest ih =>
    intro total h
    by_cases hgt : total + s > 20 * 0 + maxSize
    · rw [getSizeGo, if_pos (by omega)]
      constructor
      · intro _; simp [List.sum_cons]; omega
      · intro _; rfl
    · rw [getSizeGo, if_neg (by omega)]
      rw [ih (total + s) (by omega)]
      simp [List.sum_cons]
      omega

/-- C8.  A pre-existing output directory aborts the run unless `--force`
is given; with `--force` the directory is removed first, but the removal
is refused (an error, nothing deleted) when its total size exceeds the
20 MB threshold. -/
theorem claim_C8 (sizes : List Nat) (force : Bool) :
    (copyLatexDirGuard (some sizes) false = .error ()) ∧
    (20 * 1024 * 1024 < sizes.sum → copyLatexDirGuard (some sizes) true = .error ()) ∧
    (sizes.sum ≤ 20 * 1024 * 1024 → copyLatexDirGuard (some sizes) true = .ok true) ∧
    (copyLatexDirGuard none force = .ok false) := by
  refine ⟨rfl, ?_, ?_, rfl⟩
  · intro hbig
    have hnone : getSize sizes (20 * 1024 * 1024) = none := by
      rw [show getSize sizes (20 * 1024 * 1024) =
        getSizeGo (20 * 1024 * 1024) sizes 0 from rfl]
      rw [getSizeGo_none_iff (20 * 1024 * 1024) sizes 0 (by omega)]
      omega
    show (match rmtreeSemiSafe sizes with
      | .ok () => Except.ok true
      | .error () => Except.error ()) = Except.error ()
    unfold rmtreeSemiSafe
    rw [if_neg (by rw [hnone]; simp)]
  · intro hsmall
    have hsome : (getSize sizes (20 * 1024 * 1024)).isSome := by
      cases hg : getSize sizes (20 * 1024 * 1024) with
      | some v => rfl
      | none =>
        rw [show getSize sizes (20 * 1024 * 1024) =
          getSizeGo (20 * 1024 * 1024) sizes 0 from rfl] at hg
        rw [getSizeGo_none_iff (20 * 1024 * 1024) sizes 0 (by omega)] at hg
        omega
    show (match rmtreeSemiSafe sizes with
      | .ok () => Except.ok true
      | .error () => Except.error ()) = Except.ok true
    unfold rmtreeSemiSafe
    rw [if_pos hsome]

theorem claim_C8_witness :
    copyLatexDirGuard (some [30000000]) true = Except.error () :=
  (claim_C8 [30000000] true).2.1 (by decide)

/-! ### First-generation path resolution (main.py `Copier.get_actual_p`,
`Copier.copy`) -/

/-- main.py `_EXTS`. -/
def staticFileExts : List (List Char) :=
  [['.', 'j', 'p', 'g'], ['.', 'p', 'd', 'f'], ['.', 't', 'e', 'x'], ['.', 'p', 'n', 'g']]

/-- main.py `Copier.get_actual_p`: an existing literal path is returned
with `ext_in_latex = True`; a missing path containing `#` prints
`Oh no: …` and yields `None`; otherwise the path is completed with one
of `_EXTS`, with zero or multiple candidates raising
`FileSearchException`. -/
def getActualP (fs : List (List Char)) (p : List Char) :
    Except Unit (Option (List Char × Bool)) :=
  if fs.contains p then .ok (some (p, true))
  else if p.contains '#' then .ok none
  else
    match (staticFileExts.filter (fun e => fs.contains (p ++ e))).map
        (fun e => p ++ e) with
    | [c] => .ok (some (c, false))
    | _ => .error ()

/-- main.py `Copier.copy` with `convert_to_jpg` off: resolve the path
and copy, recording the copied path; when resolution yields `None` the
method returns without copying and without raising. -/
def copierCopy (fs : List (List Char)) (copied : List (List Char)) (p : List Char) :
    Except Unit (List (List Char)) :=
  match getActualP fs p with
  | .error _ => .error ()
  | .ok none => .ok copied
  | .ok (some (p2, _)) => .ok (copied ++ [p2])

/-- C10.  In the first-generation copier, a path that names no existing
file and contains `#` resolves to `None`, and `copy` returns with the
copied set unchanged and no exception — the include is silently
skipped. -/
theorem claim_C10 (fs copied : List (List Char)) (p : List Char)
    (h1 : fs.contains p = false) (h2 : p.contains '#' = true) :
    getActualP fs p = .ok none ∧ copierCopy fs copied p = .ok copied := by
  have hg : getActualP fs p = .ok none := by
    have h1' : ¬ fs.contains p = true := by rw [h1]; exact Bool.false_ne_true
    unfold getActualP
    rw [if_neg h1', if_pos h2]
  refine ⟨hg, ?_⟩
  unfold copierCopy
  rw [hg]

theorem claim_C10_witness :
    getActualP [] ['a', '#'] = .ok none ∧ copierCopy [] [] ['a', '#'] = .ok [] :=
  claim_C10 [] [] ['a', '#'] (by decide) (by decide)

/-! ### Bracket balancer (main2.py `_consume_until_closing_bracket`) -/

/-- One step of the bracket counter: `num_brackets` after one character. -/
def braceDelta (c : Char) (n : Int) : Int :=
  if c = openBrace then n + 1 else if c = closeBrace then n - 1 else n

/-- Character-level scan of one (already stripped) line: return
`inl (consumed, count)` when the line ends without the count reaching
zero, and `inr (consumed, remaining)` when it does — the zeroing
character is dropped, exactly as in the Python loop, which checks
`num_brackets == 0` before `consummed += c`. -/
def scanLine : List Char → Int → List Char → ((List Char × Int) ⊕ (List Char × List Char))
  | [], n, acc => Sum.inl (acc, n)
  | c :: cs, n, acc =>
    if braceDelta c n = 0 then Sum.inr (acc, cs)
    else scanLine cs (braceDelta c n) (acc ++ [c])

/-- The line loop of `_consume_until_closing_bracket`: raise after more
than 100 consumed lines (`num_lines > 100`), strip each line with
`strip_comments_from_line` (default previous line, i.e. `none`; a `None`
result would crash `enumerate`, an error), scan it, and on closure
return `consummed[1:]` with the rest of the final line.  Running off the
iterator raises as well. -/
def consumeGo : List (List Char) → Int → List Char → Nat → Except Unit (List Char × List Char)
  | [], _, _, _ => .error ()
  | line :: rest, n, acc, numLines =>
    if numLines > 100 then .error ()
    else
      (stripCommentsFromLine line none).elim (.error ())
        (fun sl =>
          (scanLine sl n acc).elim
            (fun pr => consumeGo rest pr.2 pr.1 (numLines + 1))
            (fun pr => .ok (pr.1.drop 1, pr.2)))

/-- main2.py `_consume_until_closing_bracket(first_line, f_iter)`: the
two `assert`s, then the loop over `first_line` followed by the supplied
lines. -/
def consumeUntilClosingBracket (firstLine : List Char) (rest : List (List Char)) :
    Except Unit (List Char × List Char) :=
  if firstLine.head? = some openBrace ∧ firstLine.getLast? = some '\n' then
    consumeGo (firstLine :: rest) 0 [] 0
  else .error ()

/-- Net bracket depth of a character sequence. -/
def braceDepth : List Char → Int
  | [] => 0
  | c :: s => (if c = openBrace then 1 else if c = closeBrace then -1 else 0) + braceDepth s

/-- `strip_comments_from_line` with no previous line maps `l` to `sl`. -/
def StrippedTo (l sl : List Char) : Prop := stripCommentsFromLine l none = some sl

/-- Specification of a successful consumption: some prefix `used` of the
supplied lines (at most 100 of them) is read after the first line; every
read line strips to the corresponding line of `ss`; the stripped text
decomposes as `{ consumed } remaining` where the depth first returns to
zero exactly at the closing brace, which sits inside the last stripped
line (so `remaining` is the unconsumed tail of that line). -/
def ConsumeSpec (firstLine : List Char) (rest : List (List Char))
    (consumed remaining : List Char) : Prop :=
  firstLine.head? = some openBrace ∧ firstLine.getLast? = some '\n' ∧
  ∃ used t ss,
    used.length ≤ 100 ∧
    used ++ t = rest ∧
    List.Forall₂ StrippedTo (firstLine :: used) ss ∧
    ss.flatten = openBrace :: consumed ++ closeBrace :: remaining ∧
    (∃ lastLine, ss.getLast? = some lastLine ∧ remaining.length < lastLine.length) ∧
    (∀ p q, p ++ q = openBrace :: consumed → p ≠ [] → braceDepth p ≠ 0) ∧
    braceDepth (openBrace :: consumed) = 1

theorem braceDepth_nil : braceDepth [] = 0 := rfl

theorem braceDepth_single (c : Char) :
    braceDepth [c] = if c = openBrace then 1 else if c = closeBrace then -1 else 0 := by
  show (if c = openBrace then (1 : Int) else if c = closeBrace then -1 else 0) +
      braceDepth [] = _
  rw [braceDepth_nil]
  omega

theorem braceDepth_append (a : List Char) : ∀ b, braceDepth (a ++ b) = braceDepth a + braceDepth b := by
  induction a with
  | nil => intro b; rw [List.nil_append, braceDepth_nil]; omega
  | cons c a' ih =>
    intro b
    show braceDepth (c :: (a' ++ b)) = _
    rw [braceDepth, ih b, braceDepth]
    omega

theorem braceDepth_cons (c : Char) (s : List Char) :
    braceDepth (c :: s) = braceDepth [c] + braceDepth s := by
  rw [show c :: s = [c] ++ s from rfl, braceDepth_append]

theorem braceDelta_braceDepth (c : Char) (n : Int) :
    braceDelta c n = n + braceDepth [c] := by
  rw [braceDepth_single]
  unfold braceDelta
  by_cases h1 : c = openBrace
  · rw [if_pos h1, if_pos h1]
  · rw [if_neg h1, if_neg h1]
    by_cases h2 : c = closeBrace
    · rw [if_pos h2, if_pos h2]; omega
    · rw [if_neg h2, if_neg h2]; omega

theorem braceDepth_singleton_cases (c : Char) :
    braceDepth [c] = 1 ∨ braceDepth [c] = -1 ∨ braceDepth [c] = 0 := by
  rw [braceDepth_single]
  by_cases h1 : c = openBrace
  · rw [if_pos h1]; left; rfl
  · rw [if_neg h1]
    by_cases h2 : c = closeBrace
    · rw [if_pos h2]; right; left; rfl
    · rw [if_neg h2]; right; right; rfl

theorem closeBrace_of_braceDepth (c : Char) (h : braceDepth [c] = -1) :
    c = closeBrace := by
  by_cases h2 : c = closeBrace
  · exact h2
  · exfalso
    rw [braceDepth_single] at h
    by_cases h1 : c = openBrace
    · rw [if_pos h1] at h; omega
    · rw [if_neg h1, if_neg h2] at h; omega

/-- Scanning past a segment in which the count never returns to zero. -/
theorem scanLine_append_pass (a : List Char) : ∀ (b : List Char) (n : Int) (acc : List Char),
    (∀ p q, p ++ q = a → p ≠ [] → n + braceDepth p ≠ 0) →
    scanLine (a ++ b) n acc = scanLine b (n + braceDepth a) (acc ++ a) := by
  induction a with
  | nil =>
    intro b n acc _
    show scanLine b n acc = scanLine b (n + braceDepth []) (acc ++ [])
    rw [show braceDepth [] = 0 from rfl]
    rw [List.append_nil]
    norm_num
  | cons c a' ih =>
    intro b n acc h
    have hne : braceDelta c n ≠ 0 := by
      rw [braceDelta_braceDepth]
      exact h [c] a' rfl (by simp)
    show (if braceDelta c n = 0 then Sum.inr (acc, a' ++ b)
      else scanLine (a' ++ b) (braceDelta c n) (acc ++ [c])) = _
    rw [if_neg hne]
    rw [ih b (braceDelta c n) (acc ++ [c]) ?_]
    · have e1 : braceDelta c n + braceDepth a' = n + braceDepth (c :: a') := by
        rw [braceDelta_braceDepth]
        have := braceDepth_cons c a'
        omega
      have e2 : (acc ++ [c]) ++ a' = acc ++ c :: a' := by simp
      rw [e1, e2]
    · intro p q hpq hpne
      have h2 := h (c :: p) q (by rw [← hpq]; rfl) (by simp)
      have h3 := braceDepth_cons c p
      rw [braceDelta_braceDepth]
      omega

theorem scanLine_pass (s : List Char) (n : Int) (acc : List Char)
    (h : ∀ p q, p ++ q = s → p ≠ [] → n + braceDepth p ≠ 0) :
    scanLine s n acc = Sum.inl (acc ++ s, n + braceDepth s) := by
  have := scanLine_append_pass s [] n acc h
  rw [List.append_nil] at this
  rw [this]
  rfl

/-- Scanning a line in which the count returns to zero exactly after
`mid`. -/
theorem scanLine_hit (mid rem : List Char) (c0 : Char) (n : Int) (acc : List Char)
    (hpre : ∀ p q, p ++ q = mid → p ≠ [] → n + braceDepth p ≠ 0)
    (hclose : n + braceDepth (mid ++ [c0]) = 0) :
    scanLine (mid ++ c0 :: rem) n acc = Sum.inr (acc ++ mid, rem) := by
  rw [scanLine_append_pass mid (c0 :: rem) n acc hpre]
  show (if braceDelta c0 (n + braceDepth mid) = 0 then Sum.inr (acc ++ mid, rem)
    else scanLine rem (braceDelta c0 (n + braceDepth mid)) ((acc ++ mid) ++ [c0])) = _
  rw [braceDepth_append] at hclose
  rw [if_pos (by rw [braceDelta_braceDepth]; omega)]

theorem scanLine_inl_spec (s : List Char) : ∀ (n : Int) (acc acc2 : List Char) (n2 : Int),
    scanLine s n acc = Sum.inl (acc2, n2) →
    acc2 = acc ++ s ∧ n2 = n + braceDepth s ∧
    ∀ p q, p ++ q = s → p ≠ [] → n + braceDepth p ≠ 0 := by
  induction s with
  | nil =>
    intro n acc acc2 n2 h
    have h' : Sum.inl (α := List Char × Int) (β := List Char × List Char) (acc, n) =
        Sum.inl (acc2, n2) := h
    injection h' with h'
    injection h' with h1 h2
    refine ⟨by rw [← h1]; simp, by rw [← h2]; show n = n + braceDepth []; rw [show braceDepth [] = 0 from rfl]; omega, ?_⟩
    intro p q hpq hpne
    have : p = [] := by
      cases p with
      | nil => rfl
      | cons a b => cases hpq
    exact absurd this hpne
  | cons c cs ih =>
    intro n acc acc2 n2 h
    have h' : (if braceDelta c n = 0 then
        (Sum.inr (acc, cs) : (List Char × Int) ⊕ (List Char × List Char))
      else scanLine cs (braceDelta c n) (acc ++ [c])) = Sum.inl (acc2, n2) := h
    by_cases hz : braceDelta c n = 0
    · rw [if_pos hz] at h'; cases h'
    · rw [if_neg hz] at h'
      obtain ⟨ha, hn, hp⟩ := ih (braceDelta c n) (acc ++ [c]) acc2 n2 h'
      refine ⟨by rw [ha]; simp, ?_, ?_⟩
      · have h3 := braceDepth_cons c cs
        rw [hn, braceDelta_braceDepth]
        omega
      · intro p q hpq hpne
        cases p with
        | nil => exact absurd rfl hpne
        | cons cp p' =>
          have hcp : cp = c := by
            have := congrArg List.head? hpq
            simpa using this
          rw [hcp]
          have hp'q : p' ++ q = cs := by
            have := congrArg List.tail hpq
            simpa using this
          by_cases hp' : p' = []
          · subst hp'
            rw [braceDelta_braceDepth] at hz
            exact hz
          · have h4 := hp p' q hp'q hp'
            rw [braceDelta_braceDepth] at h4
            have h3 := braceDepth_cons c p'
            omega

theorem scanLine_inr_spec (s : List Char) : ∀ (n : Int) (acc acc2 rem : List Char),
    scanLine s n acc = Sum.inr (acc2, rem) →
    ∃ mid c0, s = mid ++ c0 :: rem ∧ acc2 = acc ++ mid ∧
      n + braceDepth (mid ++ [c0]) = 0 ∧
      ∀ p q, p ++ q = mid → p ≠ [] → n + braceDepth p ≠ 0 := by
  induction s with
  | nil =>
    intro n acc acc2 rem h
    cases h
  | cons c cs ih =>
    intro n acc acc2 rem h
    have h' : (if braceDelta c n = 0 then
        (Sum.inr (acc, cs) : (List Char × Int) ⊕ (List Char × List Char))
      else scanLine cs (braceDelta c n) (acc ++ [c])) = Sum.inr (acc2, rem) := h
    by_cases hz : braceDelta c n = 0
    · rw [if_pos hz] at h'
      injection h' with h'
      injection h' with h1 h2
      refine ⟨[], c, by rw [h2]; rfl, by rw [← h1]; simp, ?_, ?_⟩
      · rw [braceDelta_braceDepth] at hz
        show n + braceDepth ([] ++ [c]) = 0
        rw [List.nil_append]
        exact hz
      · intro p q hpq hpne
        have : p = [] := by
          cases p with
          | nil => rfl
          | cons a b => cases hpq
        exact absurd this hpne
    · rw [if_neg hz] at h'
      obtain ⟨mid', c0, hs, ha, hc, hp⟩ := ih (braceDelta c n) (acc ++ [c]) acc2 rem h'
      refine ⟨c :: mid', c0, by rw [hs]; rfl, by rw [ha]; simp, ?_, ?_⟩
      · rw [braceDelta_braceDepth] at hc
        have h3 := braceDepth_cons c (mid' ++ [c0])
        rw [show (c :: mid') ++ [c0] = c :: (mid' ++ [c0]) from rfl]
        omega
      · intro p q hpq hpne
        cases p with
        | nil => exact absurd rfl hpne
        | cons cp p' =>
          have hcp : cp = c := by
            have := congrArg List.head? hpq
            simpa using this
          rw [hcp]
          have hp'q : p' ++ q = mid' := by
            have := congrArg List.tail hpq
            simpa using this
          by_cases hp' : p' = []
          · subst hp'
            rw [braceDelta_braceDepth] at hz
            exact hz
          · have h4 := hp p' q hp'q hp'
            rw [braceDelta_braceDepth] at h4
            have h3 := braceDepth_cons c p'
            omega

theorem head?_append_ne_nil (a b : List Char) (h : a ≠ []) :
    (a ++ b).head? = a.head? := by
  cases a with
  | nil => exact absurd rfl h
  | cons c t => rfl

/-- Stripping (with no previous line) preserves an opening-brace head. -/
theorem strip_head_openBrace (l sl : List Char)
    (hh : l.head? = some openBrace) (hs : stripCommentsFromLine l none = some sl) :
    sl.head? = some openBrace := by
  obtain ⟨l', rfl⟩ : ∃ l', l = openBrace :: l' := by
    cases l with
    | nil => cases hh
    | cons c t =>
      have hc : c = openBrace := by simpa using hh
      exact ⟨t, by rw [hc]⟩
  have hlstrip : pyLstrip (openBrace :: l') = openBrace :: l' := by
    show (openBrace :: l').dropWhile isPySpace = _
    rw [List.dropWhile_cons, if_neg (by decide)]
  have hnotpct : ¬ (pyLstrip (openBrace :: l')).head? = some '%' := by
    rw [hlstrip]
    intro hc
    have : openBrace = '%' := by simpa using hc
    exact absurd this (by decide)
  rw [stripCommentsFromLine, if_neg hnotpct] at hs
  by_cases h2 : (pyRstrip (openBrace :: l')).getLast? = some '%'
  · rw [if_pos h2] at hs
    injection hs with hs
    rw [← hs]
    rfl
  · rw [if_neg h2] at hs
    cases hg : getLeftmostComment (openBrace :: l') with
    | none =>
      rw [hg] at hs
      injection hs with hs
      rw [← hs]
      rfl
    | some i =>
      rw [hg] at hs
      injection hs with hs
      rw [← hs]
      have hCA := ((getLeftmostComment_spec _).1 i hg).1
      have hi1 : 1 ≤ i := hCA.1
      obtain ⟨j, rfl⟩ : ∃ j, i = j + 1 := ⟨i - 1, by omega⟩
      have htake : (openBrace :: l').take (j + 1) = openBrace :: l'.take j := rfl
      rw [htake]
      obtain ⟨t, hsp, ht⟩ := pyRstrip_eq_append (openBrace :: l'.take j)
      have hne : pyRstrip (openBrace :: l'.take j) ≠ [] := by
        intro hnil
        rw [hnil, List.nil_append] at ht
        have := hsp openBrace (by rw [ht]; exact List.mem_cons_self _ _)
        exact absurd this (by decide)
      rw [head?_append_ne_nil _ _ hne]
      have hhd := congrArg List.head? ht
      rw [head?_append_ne_nil _ _ hne] at hhd
      rw [hhd]
      rfl

/-- If the depth never returns to zero after the opening brace, it stays
at least one. -/
theorem braceDepth_ge_one (c : List Char)
    (h : ∀ p q, p ++ q = openBrace :: c → p ≠ [] → braceDepth p ≠ 0) :
    1 ≤ braceDepth (openBrace :: c) := by
  induction c using List.reverseRecOn with
  | nil =>
    have e : braceDepth [openBrace] = 1 := by
      rw [braceDepth_single, if_pos rfl]
    omega
  | append_singleton c' ch ih =>
    have h' : ∀ p q, p ++ q = openBrace :: c' → p ≠ [] → braceDepth p ≠ 0 := by
      intro p q hpq hpne
      refine h p (q ++ [ch]) ?_ hpne
      rw [← List.append_assoc, hpq]
      rfl
    have h1 := ih h'
    have h2 : braceDepth (openBrace :: (c' ++ [ch])) =
        braceDepth (openBrace :: c') + braceDepth [ch] := by
      rw [show openBrace :: (c' ++ [ch]) = (openBrace :: c') ++ [ch] from rfl,
        braceDepth_append]
    have h3 := h (openBrace :: (c' ++ [ch])) [] (by simp) (by simp)
    have h4 := braceDepth_singleton_cases ch
    omega

theorem mem_of_getLast?_eq (ls : List (List Char)) (l : List Char)
    (h : ls.getLast? = some l) : l ∈ ls := by
  induction ls with
  | nil => cases h
  | cons x ls' ih =>
    cases ls' with
    | nil =>
      have : x = l := by simpa using h
      rw [this]
      exact List.mem_cons_self _ _
    | cons y t =>
      rw [List.getLast?_cons_cons] at h
      exact List.mem_cons_of_mem _ (ih h)

theorem length_le_flatten (l : List Char) (ls : List (List Char)) (h : l ∈ ls) :
    l.length ≤ ls.flatten.length := by
  induction ls with
  | nil => cases h
  | cons x ls' ih =>
    rw [List.flatten_cons, List.length_append]
    rcases List.mem_cons.1 h with rfl | h'
    · omega
    · have := ih h'
      omega

/-- Soundness of the line loop: a successful run decomposes the stripped
consumed lines around the first return of the count to zero. -/
theorem consumeGo_sound (lines : List (List Char)) : ∀ (n : Int) (acc : List Char)
    (numLines : Nat) (c r : List Char),
    consumeGo lines n acc numLines = .ok (c, r) →
    ∃ cl t ss mid c0,
      cl ++ t = lines ∧ cl ≠ [] ∧
      numLines + cl.length ≤ 101 ∧
      List.Forall₂ StrippedTo cl ss ∧
      ss.flatten = mid ++ c0 :: r ∧
      c = (acc ++ mid).drop 1 ∧
      n + braceDepth (mid ++ [c0]) = 0 ∧
      (∀ p q, p ++ q = mid → p ≠ [] → n + braceDepth p ≠ 0) ∧
      (∃ lastLine, ss.getLast? = some lastLine ∧ r.length < lastLine.length) := by
  induction lines with
  | nil => intro n acc numLines c r h; cases h
  | cons line rest ih =>
    intro n acc numLines c r h
    have h' : (if numLines > 100 then (Except.error () : Except Unit (List Char × List Char))
      else (stripCommentsFromLine line none).elim (.error ())
        (fun sl =>
          (scanLine sl n acc).elim
            (fun pr => consumeGo rest pr.2 pr.1 (numLines + 1))
            (fun pr => .ok (pr.1.drop 1, pr.2)))) = Except.ok (c, r) := h
    by_cases hnum : numLines > 100
    · rw [if_pos hnum] at h'; cases h'
    · rw [if_neg hnum] at h'
      cases hstrip : stripCommentsFromLine line none with
      | none => rw [hstrip] at h'; cases h'
      | some sl =>
        rw [hstrip] at h'
        simp only [Option.elim] at h'
        cases hscan : scanLine sl n acc with
        | inr pr =>
          obtain ⟨acc2, remaining⟩ := pr
          rw [hscan] at h'
          simp only [Sum.elim] at h'
          injection h' with h3
          injection h3 with h3c h3r
          obtain ⟨mid, c0, hsl, ha, hc0, hpre⟩ :=
            scanLine_inr_spec sl n acc acc2 remaining hscan
          refine ⟨[line], rest, [sl], mid, c0, rfl, by simp,
            by simp only [List.length_cons, List.length_nil]; omega,
            List.Forall₂.cons hstrip List.Forall₂.nil, ?_, ?_, hc0, hpre, ?_⟩
          · rw [show ([sl] : List (List Char)).flatten = sl by simp, hsl, h3r]
          · rw [← h3c, ha]
          · refine ⟨sl, by simp, ?_⟩
            rw [hsl]
            simp only [List.length_append, List.length_cons]
            rw [h3r]
            omega
        | inl pr =>
          obtain ⟨acc2, n2⟩ := pr
          rw [hscan] at h'
          simp only [Sum.elim] at h'
          obtain ⟨cl, t, ss, mid2, c0, hct, hcne, hlen, hfa, hfl, hcdrop, hclose,
            hpre2, lastLine, hll, hllen⟩ := ih n2 acc2 (numLines + 1) c r h'
          obtain ⟨ha2, hn2, hpre1⟩ := scanLine_inl_spec sl n acc acc2 n2 hscan
          refine ⟨line :: cl, t, sl :: ss, sl ++ mid2, c0, ?_, by simp, ?_,
            List.Forall₂.cons hstrip hfa, ?_, ?_, ?_, ?_, ?_⟩
          · rw [← hct]; rfl
          · simp only [List.length_cons]
            omega
          · rw [List.flatten_cons, hfl, List.append_assoc]
          · rw [hcdrop, ha2, List.append_assoc]
          · have e1 : braceDepth ((sl ++ mid2) ++ [c0]) =
                braceDepth sl + braceDepth (mid2 ++ [c0]) := by
              rw [List.append_assoc, braceDepth_append]
            omega
          · intro p q hpq hpne
            rcases List.append_eq_append_iff.1 hpq with ⟨a', h1, h2⟩ | ⟨c', h1, h2⟩
            · exact hpre1 p a' h1.symm hpne
            · by_cases hc' : c' = []
              · have hslne : sl ≠ [] := by
                  intro hnil
                  apply hpne
                  rw [h1, hc', hnil]
                  rfl
                have h5 := hpre1 sl [] (List.append_nil sl) hslne
                rw [h1, hc', List.append_nil]
                exact h5
              · have h4 := hpre2 c' q h2.symm hc'
                have e2 := braceDepth_append sl c'
                rw [h1]
                omega
          · refine ⟨lastLine, ?_, hllen⟩
            have hssne : ss ≠ [] := by
              intro hnil; rw [hnil] at hll; cases hll
            cases ss with
            | nil => exact absurd rfl hssne
            | cons s0 ss' =>
              rw [List.getLast?_cons_cons]
              exact hll

/-- Completeness of the line loop: a decomposition as in `ConsumeSpec`
forces the successful run. -/
theorem consumeGo_complete (cl : List (List Char)) : ∀ (ss t : List (List Char))
    (n : Int) (acc : List Char) (numLines : Nat) (mid : List Char) (c0 : Char)
    (r : List Char),
    List.Forall₂ StrippedTo cl ss →
    ss.flatten = mid ++ c0 :: r →
    (∀ p q, p ++ q = mid → p ≠ [] → n + braceDepth p ≠ 0) →
    n + braceDepth (mid ++ [c0]) = 0 →
    (∃ lastLine, ss.getLast? = some lastLine ∧ r.length < lastLine.length) →
    numLines + cl.length ≤ 101 →
    cl ≠ [] →
    consumeGo (cl ++ t) n acc numLines = .ok ((acc ++ mid).drop 1, r) := by
  induction cl with
  | nil => intro ss t n acc numLines mid c0 r _ _ _ _ _ _ hne; exact absurd rfl hne
  | cons line cl' ih =>
    intro ss t n acc numLines mid c0 r hfa hfl hpre hclose hlast hcount hne
    obtain ⟨sl, ss', rfl, hst, hfa'⟩ : ∃ sl ss', ss = sl :: ss' ∧
        StrippedTo line sl ∧ List.Forall₂ StrippedTo cl' ss' := by
      cases hfa with
      | cons h1 h2 => exact ⟨_, _, rfl, h1, h2⟩
    have hnum : ¬ numLines > 100 := by
      simp only [List.length_cons] at hcount; omega
    have hstep : consumeGo ((line :: cl') ++ t) n acc numLines =
      (if numLines > 100 then Except.error () else
        (stripCommentsFromLine line none).elim (.error ())
          (fun sl2 =>
            (scanLine sl2 n acc).elim
              (fun pr => consumeGo (cl' ++ t) pr.2 pr.1 (numLines + 1))
              (fun pr => .ok (pr.1.drop 1, pr.2)))) := rfl
    rw [hstep, if_neg hnum,
      show stripCommentsFromLine line none = some sl from hst]
    simp only [Option.elim]
    cases cl' with
    | nil =>
      have hss' : ss' = [] := by cases hfa'; rfl
      subst hss'
      have hsl : sl = mid ++ c0 :: r := by simpa using hfl
      rw [hsl, scanLine_hit mid r c0 n acc hpre hclose]
      simp only [Sum.elim]
    | cons line2 cl'' =>
      have hss'ne : ss' ≠ [] := by
        intro hnil; subst hnil; cases hfa'
      obtain ⟨lastLine, hll, hllen⟩ := hlast
      have hll' : ss'.getLast? = some lastLine := by
        cases ss' with
        | nil => exact absurd rfl hss'ne
        | cons s0 ss'' => rw [List.getLast?_cons_cons] at hll; exact hll
      have hmem : lastLine ∈ ss' := mem_of_getLast?_eq ss' lastLine hll'
      have hlenflat : lastLine.length ≤ ss'.flatten.length := length_le_flatten _ _ hmem
      have hfl' : sl ++ ss'.flatten = mid ++ c0 :: r := by
        rw [List.flatten_cons] at hfl
        exact hfl
      have hsllen : sl.length ≤ mid.length := by
        have h1 := congrArg List.length hfl'
        simp only [List.length_append, List.length_cons] at h1
        omega
      obtain ⟨mid2, hmid, hfl2⟩ : ∃ mid2, mid = sl ++ mid2 ∧
          ss'.flatten = mid2 ++ c0 :: r := by
        rcases List.append_eq_append_iff.1 hfl' with ⟨a', h1, h2⟩ | ⟨c', h1, h2⟩
        · exact ⟨a', h1, h2⟩
        · have hc'nil : c' = [] := by
            have := congrArg List.length h1
            simp only [List.length_append] at this
            have hlc : c'.length = 0 := by omega
            exact List.length_eq_zero.1 hlc
          subst hc'nil
          rw [List.append_nil] at h1
          rw [List.nil_append] at h2
          exact ⟨[], by rw [List.append_nil, h1], h2.symm⟩
      subst hmid
      rw [scanLine_pass sl n acc (by
        intro p q hpq hpne
        exact hpre p (q ++ mid2) (by rw [← List.append_assoc, hpq]) hpne)]
      simp only [Sum.elim]
      have hres := ih ss' t (n + braceDepth sl) (acc ++ sl) (numLines + 1) mid2 c0 r
        hfa' hfl2
        (by
          intro p q hpq hpne
          have h4 := hpre (sl ++ p) q (by rw [List.append_assoc, hpq])
            (by
              intro hc
              rw [List.append_eq_nil] at hc
              exact hpne hc.2)
          have e2 := braceDepth_append sl p
          omega)
        (by
          have e2 : braceDepth ((sl ++ mid2) ++ [c0]) =
              braceDepth sl + braceDepth (mid2 ++ [c0]) := by
            rw [List.append_assoc, braceDepth_append]
          omega)
        ⟨lastLine, hll', hllen⟩
        (by simp only [List.length_cons] at hcount ⊢; omega)
        (by simp)
      rw [List.append_assoc] at hres
      exact hres

/-- C3.  Given a first line starting at an unmatched `{` (and ending in
a newline) and supplied further lines: whenever the stripped text makes
the bracket depth return to zero within the bounded lookahead,
`_consume_until_closing_bracket` returns the consumed text with the
outer bracket pair removed together with the unconsumed tail of the
final line; and whenever no such bounded decomposition exists, it fails
with an error instead of scanning on. -/
theorem claim_C3 (fl : List Char) (rest : List (List Char)) :
    (∀ c r, ConsumeSpec fl rest c r →
      consumeUntilClosingBracket fl rest = .ok (c, r)) ∧
    ((∀ c r, ¬ ConsumeSpec fl rest c r) →
      consumeUntilClosingBracket fl rest = .error ()) := by
  constructor
  · rintro c r ⟨hhead, hnl, used, t, ss, hused, hut, hfa, hfl, hlast, hpre, hdepth⟩
    unfold consumeUntilClosingBracket
    rw [if_pos ⟨hhead, hnl⟩]
    have hbd : braceDepth [closeBrace] = -1 := by
      rw [braceDepth_single, if_neg (by decide), if_pos rfl]
    have hcall := consumeGo_complete (fl :: used) ss t 0 [] 0 (openBrace :: c)
      closeBrace r hfa
      (by rw [hfl])
      (by
        intro p q hpq hpne
        have := hpre p q hpq hpne
        omega)
      (by
        have e1 : braceDepth ((openBrace :: c) ++ [closeBrace]) =
            braceDepth (openBrace :: c) + braceDepth [closeBrace] :=
          braceDepth_append _ _
        omega)
      hlast
      (by simp only [List.length_cons]; omega)
      (by simp)
    rw [show (fl :: used) ++ t = fl :: rest by rw [List.cons_append, hut]] at hcall
    simpa using hcall
  · intro hnospec
    cases hres : consumeUntilClosingBracket fl rest with
    | error e => rfl
    | ok pr =>
      obtain ⟨c, r⟩ := pr
      exfalso
      apply hnospec c r
      unfold consumeUntilClosingBracket at hres
      by_cases hcond : fl.head? = some openBrace ∧ fl.getLast? = some '\n'
      · rw [if_pos hcond] at hres
        obtain ⟨cl, t, ss, mid, c0, hct, hcne, hlen, hfa, hfl, hcdrop, hclose,
          hpre, lastLine, hll, hllen⟩ := consumeGo_sound (fl :: rest) 0 [] 0 c r hres
        cases cl with
        | nil => exact absurd rfl hcne
        | cons l0 used =>
          have hl0 : l0 = fl := by
            have := congrArg List.head? hct
            simpa using this
          subst hl0
          have hut : used ++ t = rest := by
            have := congrArg List.tail hct
            simpa using this
          -- the stripped first line and hence the flattened text start with `{`
          obtain ⟨sl, ss', rfl, hst, hfa'⟩ : ∃ sl ss', ss = sl :: ss' ∧
              StrippedTo l0 sl ∧ List.Forall₂ StrippedTo used ss' := by
            cases hfa with
            | cons h1 h2 => exact ⟨_, _, rfl, h1, h2⟩
          have hslhead : sl.head? = some openBrace :=
            strip_head_openBrace l0 sl hcond.1 hst
          have hslne : sl ≠ [] := by
            intro hnil; rw [hnil] at hslhead; cases hslhead
          have hflhead : ((sl :: ss').flatten).head? = some openBrace := by
            rw [List.flatten_cons, head?_append_ne_nil _ _ hslne]
            exact hslhead
          have hmidne : mid ≠ [] := by
            intro hnil
            subst hnil
            rw [hfl] at hflhead
            have hc0 : c0 = openBrace := by simpa using hflhead
            rw [List.nil_append] at hclose
            have e : braceDepth [c0] = 1 := by
              rw [hc0, braceDepth_single, if_pos rfl]
            omega
          obtain ⟨m0, mid', rfl⟩ : ∃ m0 mid', mid = m0 :: mid' := by
            cases mid with
            | nil => exact absurd rfl hmidne
            | cons a b => exact ⟨a, b, rfl⟩
          have hm0 : m0 = openBrace := by
            rw [hfl] at hflhead
            simpa using hflhead
          subst hm0
          have hcmid : mid' = c := by
            rw [hcdrop]
            rfl
          subst hcmid
          -- the zeroing character is the closing brace
          have hge1 : 1 ≤ braceDepth (openBrace :: mid') :=
            braceDepth_ge_one mid' (by
              intro p q hpq hpne
              have := hpre p q hpq hpne
              omega)
          have hbdapp : braceDepth ((openBrace :: mid') ++ [c0]) =
              braceDepth (openBrace :: mid') + braceDepth [c0] :=
            braceDepth_append _ _
          have hc0close : c0 = closeBrace := by
            apply closeBrace_of_braceDepth
            have := braceDepth_singleton_cases c0
            omega
          subst hc0close
          refine ⟨hcond.1, hcond.2, used, t, sl :: ss', by
              simp only [List.length_cons] at hlen; omega,
            hut, List.Forall₂.cons hst hfa', hfl, ⟨lastLine, hll, hllen⟩, ?_, ?_⟩
          · intro p q hpq hpne
            have := hpre p q hpq hpne
            omega
          · have hbd2 : braceDepth [closeBrace] = -1 := by
              rw [braceDepth_single, if_neg (by decide), if_pos rfl]
            omega
      · rw [if_neg hcond] at hres
        cases hres

theorem claim_C3_witness :
    consumeUntilClosingBracket ['\x7b', '\x7d', ' ', 'y', '\n'] [] =
      Except.ok ([], [' ', 'y', '\n']) := by
  apply (claim_C3 ['\x7b', '\x7d', ' ', 'y', '\n'] []).1
  refine ⟨by decide, by decide, [], [], [['\x7b', '\x7d', ' ', 'y', '\n']],
    by decide, rfl, ?_, by decide, ?_, ?_, by decide⟩
  · exact List.Forall₂.cons
      (show stripCommentsFromLine ['\x7b', '\x7d', ' ', 'y', '\n'] none =
        some ['\x7b', '\x7d', ' ', 'y', '\n'] by decide)
      List.Forall₂.nil
  · exact ⟨['\x7b', '\x7d', ' ', 'y', '\n'], by decide, by decide⟩
  · intro p q hpq hpne
    cases p with
    | nil => exact absurd rfl hpne
    | cons a p' =>
      have ha : a = openBrace := by
        have := congrArg List.head? hpq
        simpa using this
      have hp' : p' = [] := by
        have := congrArg List.length hpq
        simp only [List.length_cons, List.length_append, List.length_nil] at this
        have hl0 : p'.length = 0 := by omega
        exact List.length_eq_zero.1 hl0
      subst ha
      subst hp'
      rw [show braceDepth [openBrace] = 1 by rw [braceDepth_single, if_pos rfl]]
      omega

end ArxivPrep
